import Mathlib

/-!
# Verification of the ai-orb retrieval pipeline

Shallow embedding of the core retrieval logic of the repository:

* `backend/src/takehome/services/rag.py` — chunking (`chunk_document`),
  context enrichment (`generate_chunk_contexts`), hybrid search with
  reciprocal rank fusion (`search_chunks`);
* `backend/src/takehome/services/llm.py` — citation extraction
  (`extract_citations`, `strip_cite_tags`, `count_sources_cited`);
* `test_rag_e2e.py` — the citation grounding check (`score_citations`).

External collaborators (the tiktoken tokenizer, the OpenAI embedding call,
the Anthropic completion call, `json.loads`, the BM25 library and the
pgvector SQL ranking) are modelled as parameters: the embedding quantifies
over their outcomes.  Python floats for RRF scores are modelled as exact
rationals (the spec states the scores as exact fractions `1/(k+rank)`).
-/

namespace AiOrb

/-! ## Python `str.strip` and basic character utilities -/

/-- Python's `\s`-style whitespace test (space, tab, CR, LF). -/
def isWS (c : Char) : Bool := c.isWhitespace

/-- Python `str.strip()` on the character-list view: drop whitespace from both ends. -/
def listStrip (cs : List Char) : List Char :=
  ((cs.dropWhile isWS).reverse.dropWhile isWS).reverse

/-- Python `str.strip()` for `String`, modelling `para.strip()` in
`chunk_document` (rag.py line 114). -/
def pyStrip (s : String) : String := String.mk (listStrip s.data)

/-- Character-list prefix test (used to model Python's `re`/`str` prefix
matching in a kernel-reducible way). -/
def leadMatch : List Char → List Char → Bool
  | [], _ => true
  | _ :: _, [] => false
  | a :: as, b :: bs => a == b && leadMatch as bs

/-! ## Chunking (`chunk_document`, rag.py lines 82-155)

The page-marker regex split and the `page_text.split("\n\n")` paragraph
split are pure string plumbing performed before the accumulation loop; the
embedding therefore takes a document as a list of `(page_number, paragraphs)`
pairs and models the loop of lines 113-153 exactly.  Token counting
(`_count_tokens`, lines 41-42) calls the external tiktoken `cl100k_base`
encoder and is modelled as an abstract function `count : String → Nat`. -/

/-- Constant `CHUNK_TARGET_TOKENS` (rag.py line 49). -/
def CHUNK_TARGET_TOKENS : Nat := 500

/-- Constant `CHUNK_OVERLAP_TOKENS` (rag.py line 50). -/
def CHUNK_OVERLAP_TOKENS : Nat := 50

/-- The `ChunkInfo` dataclass (rag.py lines 56-61). -/
structure ChunkInfo where
  content : String
  page_number : Nat
  section_header : Option String
  token_count : Nat
deriving DecidableEq, Repr

/-- The overlap computation of rag.py lines 131-138: after a flush, keep
the last accumulated part (with its token count) when it fits the overlap
budget, otherwise restart from an empty chunk. -/
def overlapSeed (count : String → Nat) (parts : List String) :
    List String × Nat :=
  match parts.getLast? with
  | some lastPart =>
      if count lastPart ≤ CHUNK_OVERLAP_TOKENS then ([lastPart], count lastPart)
      else ([], 0)
  | none => ([], 0)

/-- The paragraph-accumulation loop of `chunk_document` (rag.py lines
113-153) for one page.  State: `parts` is `current_chunk_parts`, `tokens`
is `current_tokens`.  Produces the flushed `(parts, token_count)` pairs in
order; the caller joins `parts` with blank lines to obtain the content. -/
def chunkLoop (count : String → Nat) :
    List String → List String → Nat → List (List String × Nat)
  | [], parts, tokens =>
      -- lines 144-153: flush the remaining accumulated content
      if parts.isEmpty then [] else [(parts, tokens)]
  | para :: rest, parts, tokens =>
      -- lines 114-116: strip the paragraph, skip it when empty
      if pyStrip para = "" then chunkLoop count rest parts tokens
      else
        -- lines 121-141: flush when the paragraph would exceed the target,
        -- seed the next chunk per the overlap policy, then append
        if 0 < tokens ∧ CHUNK_TARGET_TOKENS < tokens + count (pyStrip para) then
          (parts, tokens) ::
            chunkLoop count rest
              ((overlapSeed count parts).1 ++ [pyStrip para])
              ((overlapSeed count parts).2 + count (pyStrip para))
        else
          chunkLoop count rest (parts ++ [pyStrip para])
            (tokens + count (pyStrip para))

/-- Chunking of a single page: the loop started from an empty chunk. -/
def chunkPage (count : String → Nat) (paras : List String) :
    List (List String × Nat) :=
  chunkLoop count paras [] 0

/-- Function `chunk_document` (rag.py lines 82-155) from the page level down: each
page's paragraphs are accumulated into chunks; content joins the parts with
blank lines (line 122/145), `page_number` is the page's number,
`section_header` is `None` (lines 127 and 150), `token_count` is the
accumulated count. -/
def chunk_document (count : String → Nat) (pages : List (Nat × List String)) :
    List ChunkInfo :=
  pages.flatMap fun pg =>
    (chunkPage count pg.2).map fun c =>
      { content := String.intercalate "\n\n" c.1
        page_number := pg.1
        section_header := none
        token_count := c.2 }

/-- A token-count model used in concrete counterexamples: ten tokens per
character.  It satisfies the positivity property of the real tokenizer
(a non-empty string encodes to at least one token). -/
def tenPerChar (s : String) : Nat := 10 * s.length

/-- Paragraphs for the chunker counterexamples: 5, 46 and 1 characters, so
50, 460 and 10 tokens under `tenPerChar`. -/
def paraA : String := "aaaaa"

def paraB : String := "bbbbbbbbbbbbbbbbbbbbbbbbbbbbbbbbbbbbbbbbbbbbbb"

def paraC : String := "c"

/-! ### Invariants of the accumulation loop -/

/-- Loop-state invariant: `current_tokens` is the sum of the per-part token
counts, all accumulated parts are non-empty, and the state is within budget
or has one of the two shapes produced by overlap seeding. -/
def goodState (count : String → Nat) (parts : List String) (tokens : Nat) : Prop :=
  tokens = (parts.map count).sum ∧ (∀ x ∈ parts, x ≠ "") ∧
    (parts = [] ∨ tokens ≤ CHUNK_TARGET_TOKENS ∨ (∃ p, parts = [p]) ∨
      ∃ s p, parts = [s, p] ∧ count s ≤ CHUNK_OVERLAP_TOKENS)

/-- Property of every flushed chunk: its token count is the sum of its
parts' counts, and it is within budget unless it is a single paragraph or
an overlap seed (at most 50 tokens) followed by a single paragraph. -/
def goodChunk (count : String → Nat) (c : List String × Nat) : Prop :=
  c.2 = (c.1.map count).sum ∧ c.1 ≠ [] ∧ (∀ x ∈ c.1, x ≠ "") ∧
    (c.2 ≤ CHUNK_TARGET_TOKENS ∨ (∃ p, c.1 = [p]) ∨
      ∃ s p, c.1 = [s, p] ∧ count s ≤ CHUNK_OVERLAP_TOKENS)

theorem mem_of_getLast?_eq {α : Type} {l : List α} {a : α}
    (h : l.getLast? = some a) : a ∈ l := by
  induction l with
  | nil => simp [List.getLast?] at h
  | cons x xs ih =>
      cases xs with
      | nil =>
          simp [List.getLast?] at h
          simp [h]
      | cons y ys =>
          rw [List.getLast?_cons_cons] at h
          exact List.mem_cons_of_mem _ (ih h)

theorem overlapSeed_sum (count : String → Nat) (parts : List String) :
    (overlapSeed count parts).2 = ((overlapSeed count parts).1.map count).sum := by
  rw [overlapSeed]
  cases parts.getLast? with
  | none => simp
  | some lastPart =>
      by_cases hov : count lastPart ≤ CHUNK_OVERLAP_TOKENS <;> simp [hov]

theorem overlapSeed_cases (count : String → Nat) (parts : List String) :
    overlapSeed count parts = ([], 0) ∨
      ∃ lastPart, parts.getLast? = some lastPart ∧
        count lastPart ≤ CHUNK_OVERLAP_TOKENS ∧
        overlapSeed count parts = ([lastPart], count lastPart) := by
  rw [overlapSeed]
  cases hl : parts.getLast? with
  | none => exact Or.inl rfl
  | some lastPart =>
      by_cases hov : count lastPart ≤ CHUNK_OVERLAP_TOKENS
      · exact Or.inr ⟨lastPart, rfl, hov, by simp [hov]⟩
      · simp [hov]

/-- Token counts are summed per part, for any token-count function
(no positivity needed). -/
theorem chunkLoop_sum (count : String → Nat) :
    ∀ (paras parts : List String) (tokens : Nat),
      tokens = (parts.map count).sum →
      ∀ c ∈ chunkLoop count paras parts tokens, c.2 = (c.1.map count).sum := by
  intro paras
  induction paras with
  | nil =>
      intro parts tokens htok c hc
      rw [chunkLoop] at hc
      by_cases hp : parts.isEmpty
      · rw [if_pos hp] at hc
        exact absurd hc (List.not_mem_nil c)
      · rw [if_neg hp] at hc
        rw [List.mem_singleton] at hc
        subst hc
        exact htok
  | cons para rest ih =>
      intro parts tokens htok c hc
      rw [chunkLoop] at hc
      by_cases hp : pyStrip para = ""
      · rw [if_pos hp] at hc
        exact ih _ _ htok c hc
      · rw [if_neg hp] at hc
        by_cases hf : 0 < tokens ∧ CHUNK_TARGET_TOKENS < tokens + count (pyStrip para)
        · rw [if_pos hf] at hc
          rcases List.mem_cons.mp hc with rfl | hc
          · exact htok
          · refine ih _ _ ?_ c hc
            simp [overlapSeed_sum]
        · rw [if_neg hf] at hc
          refine ih _ _ ?_ c hc
          simp [htok]

/-- The loop preserves `goodState` and every flushed chunk satisfies
`goodChunk`, assuming the tokenizer gives non-empty strings at least one
token (true of the cl100k_base encoder). -/
theorem chunkLoop_good (count : String → Nat)
    (hpos : ∀ s : String, s ≠ "" → 1 ≤ count s) :
    ∀ (paras parts : List String) (tokens : Nat),
      goodState count parts tokens →
      ∀ c ∈ chunkLoop count paras parts tokens, goodChunk count c := by
  intro paras
  induction paras with
  | nil =>
      intro parts tokens hgood c hc
      obtain ⟨hsum, hne, hshape⟩ := hgood
      rw [chunkLoop] at hc
      by_cases hp : parts.isEmpty
      · rw [if_pos hp] at hc
        exact absurd hc (List.not_mem_nil c)
      · rw [if_neg hp] at hc
        rw [List.mem_singleton] at hc
        subst hc
        have hpne : parts ≠ [] := by simpa using hp
        refine ⟨hsum, hpne, hne, ?_⟩
        rcases hshape with h | h | h | h
        · exact absurd h hpne
        · exact Or.inl h
        · exact Or.inr (Or.inl h)
        · exact Or.inr (Or.inr h)
  | cons para rest ih =>
      intro parts tokens hgood c hc
      obtain ⟨hsum, hne, hshape⟩ := hgood
      rw [chunkLoop] at hc
      by_cases hp : pyStrip para = ""
      · rw [if_pos hp] at hc
        exact ih parts tokens ⟨hsum, hne, hshape⟩ c hc
      · rw [if_neg hp] at hc
        by_cases hf : 0 < tokens ∧ CHUNK_TARGET_TOKENS < tokens + count (pyStrip para)
        · rw [if_pos hf] at hc
          have hpartsne : parts ≠ [] := by
            intro h
            obtain ⟨hf1, _⟩ := hf
            rw [h] at hsum
            simp at hsum
            omega
          rcases List.mem_cons.mp hc with rfl | hc
          · -- the flushed chunk itself
            refine ⟨hsum, hpartsne, hne, ?_⟩
            rcases hshape with h | h | h | h
            · exact absurd h hpartsne
            · exact Or.inl h
            · exact Or.inr (Or.inl h)
            · exact Or.inr (Or.inr h)
          · -- chunks from the continuation: re-establish the invariant
            refine ih _ _ ⟨by simp [overlapSeed_sum], ?_, ?_⟩ c hc
            · intro x hx
              rcases List.mem_append.mp hx with h | h
              · rcases overlapSeed_cases count parts with hcase | ⟨l, hl, _, hcase⟩
                · rw [hcase] at h
                  exact absurd h (List.not_mem_nil x)
                · rw [hcase] at h
                  rw [List.mem_singleton] at h
                  exact h ▸ hne l (mem_of_getLast?_eq hl)
              · rw [List.mem_singleton] at h
                exact h ▸ hp
            · rcases overlapSeed_cases count parts with hcase | ⟨l, hl, hov, hcase⟩
              · rw [hcase]
                exact Or.inr (Or.inr (Or.inl ⟨pyStrip para, by simp⟩))
              · rw [hcase]
                exact Or.inr (Or.inr (Or.inr ⟨l, pyStrip para, by simp, hov⟩))
        · rw [if_neg hf] at hc
          push_neg at hf
          refine ih _ _ ⟨by simp [hsum], ?_, ?_⟩ c hc
          · intro x hx
            rcases List.mem_append.mp hx with h | h
            · exact hne x h
            · rw [List.mem_singleton] at h
              exact h ▸ hp
          · by_cases ht : 0 < tokens
            · exact Or.inr (Or.inl (hf ht))
            · have hparts : parts = [] := by
                cases hq : parts with
                | nil => rfl
                | cons y ys =>
                    exfalso
                    have hy : 1 ≤ count y := hpos y (hne y (by simp [hq]))
                    rw [hq] at hsum
                    simp at hsum
                    omega
              exact Or.inr (Or.inr (Or.inl ⟨pyStrip para, by simp [hparts]⟩))

/-! ### A seed-instrumented view of the loop

`chunkLoopG` is `chunkLoop` with one ghost annotation per chunk: the
paragraph (if any) that was carried into the chunk by the overlap policy of
rag.py lines 131-138.  `chunkLoopG_erase` proves it computes exactly the
same chunks. -/

/-- A flushed chunk together with the ghost record of the overlap seed it
started from (`none` = the chunk started empty). -/
structure GChunk where
  parts : List String
  tokens : Nat
  seed : Option String
deriving DecidableEq, Repr

def chunkLoopG (count : String → Nat) :
    List String → List String → Nat → Option String → List GChunk
  | [], parts, tokens, sd =>
      if parts.isEmpty then [] else [⟨parts, tokens, sd⟩]
  | para :: rest, parts, tokens, sd =>
      if pyStrip para = "" then chunkLoopG count rest parts tokens sd
      else
        if 0 < tokens ∧ CHUNK_TARGET_TOKENS < tokens + count (pyStrip para) then
          ⟨parts, tokens, sd⟩ ::
            chunkLoopG count rest
              ((overlapSeed count parts).1 ++ [pyStrip para])
              ((overlapSeed count parts).2 + count (pyStrip para))
              (overlapSeed count parts).1.head?
        else
          chunkLoopG count rest (parts ++ [pyStrip para])
            (tokens + count (pyStrip para)) sd

def chunkPageG (count : String → Nat) (paras : List String) : List GChunk :=
  chunkLoopG count paras [] 0 none

/-- Dropping the ghost seed annotation recovers the source loop exactly. -/
theorem chunkLoopG_erase (count : String → Nat) :
    ∀ (paras parts : List String) (tokens : Nat) (sd : Option String),
      (chunkLoopG count paras parts tokens sd).map (fun g => (g.parts, g.tokens)) =
        chunkLoop count paras parts tokens := by
  intro paras
  induction paras with
  | nil =>
      intro parts tokens sd
      rw [chunkLoopG, chunkLoop]
      by_cases hp : parts.isEmpty <;> simp [hp]
  | cons para rest ih =>
      intro parts tokens sd
      rw [chunkLoopG, chunkLoop]
      by_cases hp : pyStrip para = ""
      · rw [if_pos hp, if_pos hp]
        exact ih _ _ _
      · rw [if_neg hp, if_neg hp]
        by_cases hf : 0 < tokens ∧ CHUNK_TARGET_TOKENS < tokens + count (pyStrip para)
        · rw [if_pos hf, if_pos hf]
          simp [ih]
        · rw [if_neg hf, if_neg hf]
          exact ih _ _ _

/-- The first chunk emitted by the loop carries the pending seed
annotation. -/
theorem chunkLoopG_head_seed (count : String → Nat) :
    ∀ (paras parts : List String) (tokens : Nat) (sd : Option String) (c : GChunk),
      (chunkLoopG count paras parts tokens sd).head? = some c → c.seed = sd := by
  intro paras
  induction paras with
  | nil =>
      intro parts tokens sd c hc
      rw [chunkLoopG] at hc
      by_cases hp : parts.isEmpty
      · rw [if_pos hp] at hc
        simp at hc
      · rw [if_neg hp] at hc
        simp at hc
        rw [← hc]
  | cons para rest ih =>
      intro parts tokens sd c hc
      rw [chunkLoopG] at hc
      by_cases hp : pyStrip para = ""
      · rw [if_pos hp] at hc
        exact ih _ _ _ c hc
      · rw [if_neg hp] at hc
        by_cases hf : 0 < tokens ∧ CHUNK_TARGET_TOKENS < tokens + count (pyStrip para)
        · rw [if_pos hf] at hc
          simp at hc
          rw [← hc]
        · rw [if_neg hf] at hc
          exact ih _ _ _ c hc

/-- Shape of a seeded chunk: the seed fits the overlap budget and the chunk
consists of the seed followed by at least one fresh paragraph. -/
def seedShape (count : String → Nat) (c : GChunk) : Prop :=
  ∀ s, c.seed = some s →
    count s ≤ CHUNK_OVERLAP_TOKENS ∧ ∃ tail, tail ≠ [] ∧ c.parts = s :: tail

theorem chunkLoopG_seedShape (count : String → Nat) :
    ∀ (paras parts : List String) (tokens : Nat) (sd : Option String),
      (∀ s, sd = some s →
        count s ≤ CHUNK_OVERLAP_TOKENS ∧ ∃ tail, tail ≠ [] ∧ parts = s :: tail) →
      ∀ c ∈ chunkLoopG count paras parts tokens sd, seedShape count c := by
  intro paras
  induction paras with
  | nil =>
      intro parts tokens sd hinv c hc
      rw [chunkLoopG] at hc
      by_cases hp : parts.isEmpty
      · rw [if_pos hp] at hc
        exact absurd hc (List.not_mem_nil c)
      · rw [if_neg hp] at hc
        rw [List.mem_singleton] at hc
        subst hc
        exact hinv
  | cons para rest ih =>
      intro parts tokens sd hinv c hc
      rw [chunkLoopG] at hc
      by_cases hp : pyStrip para = ""
      · rw [if_pos hp] at hc
        exact ih _ _ _ hinv c hc
      · rw [if_neg hp] at hc
        by_cases hf : 0 < tokens ∧ CHUNK_TARGET_TOKENS < tokens + count (pyStrip para)
        · rw [if_pos hf] at hc
          rcases List.mem_cons.mp hc with rfl | hc
          · exact hinv
          · refine ih _ _ _ ?_ c hc
            intro s hs
            rcases overlapSeed_cases count parts with hcase | ⟨l, _, hov, hcase⟩
            · rw [hcase] at hs
              simp at hs
            · rw [hcase] at hs
              simp at hs
              subst hs
              exact ⟨hov, [pyStrip para], by simp, by simp [hcase]⟩
        · rw [if_neg hf] at hc
          refine ih _ _ _ ?_ c hc
          intro s hs
          obtain ⟨hov, tail, htne, hparts⟩ := hinv s hs
          exact ⟨hov, tail ++ [pyStrip para], by simp, by simp [hparts]⟩

/-- Adjacency relation between consecutively flushed chunks: the second
chunk's seed is the first chunk's last paragraph exactly when that
paragraph fits the overlap budget, and `none` otherwise. -/
def adjOK (count : String → Nat) (c₁ c₂ : GChunk) : Prop :=
  ∃ lastPart, c₁.parts.getLast? = some lastPart ∧
    c₂.seed = (if count lastPart ≤ CHUNK_OVERLAP_TOKENS then some lastPart else none)

theorem overlapSeed_head? (count : String → Nat) (parts : List String)
    (lastPart : String) (hl : parts.getLast? = some lastPart) :
    (overlapSeed count parts).1.head? =
      (if count lastPart ≤ CHUNK_OVERLAP_TOKENS then some lastPart else none) := by
  rw [overlapSeed, hl]
  by_cases hov : count lastPart ≤ CHUNK_OVERLAP_TOKENS <;> simp [hov]

theorem getLast?_of_ne_nil {α : Type} {l : List α} (h : l ≠ []) :
    ∃ a, l.getLast? = some a := by
  induction l with
  | nil => exact absurd rfl h
  | cons x xs ih =>
      cases xs with
      | nil => exact ⟨x, rfl⟩
      | cons y ys =>
          obtain ⟨a, ha⟩ := ih (by simp)
          exact ⟨a, by rw [List.getLast?_cons_cons]; exact ha⟩

theorem chunkLoopG_chain (count : String → Nat) :
    ∀ (paras parts : List String) (tokens : Nat) (sd : Option String),
      (parts = [] → tokens = 0) →
      List.Chain' (adjOK count) (chunkLoopG count paras parts tokens sd) := by
  intro paras
  induction paras with
  | nil =>
      intro parts tokens sd hne
      rw [chunkLoopG]
      by_cases hp : parts.isEmpty <;> simp [hp]
  | cons para rest ih =>
      intro parts tokens sd hne
      rw [chunkLoopG]
      by_cases hp : pyStrip para = ""
      · rw [if_pos hp]
        exact ih _ _ _ hne
      · rw [if_neg hp]
        by_cases hf : 0 < tokens ∧ CHUNK_TARGET_TOKENS < tokens + count (pyStrip para)
        · rw [if_pos hf]
          rw [List.chain'_cons']
          constructor
          · intro c₂ hc₂
            have hpne : parts ≠ [] := by
              intro h
              obtain ⟨hf1, _⟩ := hf
              have := hne h
              omega
            obtain ⟨l, hl⟩ := getLast?_of_ne_nil hpne
            refine ⟨l, hl, ?_⟩
            rw [chunkLoopG_head_seed count rest _ _ _ c₂ (Option.mem_def.mp hc₂)]
            exact overlapSeed_head? count parts l hl
          · exact ih _ _ _ (by simp)
        · rw [if_neg hf]
          exact ih _ _ _ (by simp)

/-! ### Generic helper lemmas -/

theorem intercalate_singleton (sep a : String) :
    String.intercalate sep [a] = a := by
  simp [String.intercalate, String.intercalate.go]

theorem intercalate_pair (sep a b : String) :
    String.intercalate sep [a, b] = a ++ sep ++ b := by
  simp [String.intercalate, String.intercalate.go]

theorem strLength_pos (s : String) (hs : s ≠ "") : 1 ≤ String.length s := by
  rcases s with ⟨data⟩
  cases data with
  | nil => simp at hs
  | cons c cs => simp [String.length]

theorem tenPerChar_pos (s : String) (hs : s ≠ "") : 1 ≤ tenPerChar s := by
  have := strLength_pos s hs
  simp only [tenPerChar]
  omega

theorem chain'_mono_mem {α : Type} {R S : α → α → Prop} {P : α → Prop} :
    ∀ {l : List α}, List.Chain' R l → (∀ a ∈ l, P a) →
      (∀ a b, R a b → P b → S a b) → List.Chain' S l := by
  intro l
  induction l with
  | nil =>
      intro _ _ _
      exact List.chain'_nil
  | cons x xs ih =>
      intro hch hall himp
      rw [List.chain'_cons'] at hch ⊢
      obtain ⟨hhead, htail⟩ := hch
      refine ⟨?_, ih htail (fun a ha => hall a (List.mem_cons_of_mem _ ha)) himp⟩
      intro b hb
      exact himp x b (hhead b hb)
        (hall b (List.mem_cons_of_mem _ (List.mem_of_mem_head? hb)))

/-! ### Claim theorems about the chunker -/

/-- C3 counterexample: with a 50-token paragraph, a 460-token paragraph and
a 10-token paragraph, the overlap seeding of rag.py lines 131-138 produces
a middle chunk of two paragraphs totalling 510 tokens, even though neither
paragraph alone exceeds the 500-token budget — refuting the claim that only
single over-budget-paragraph chunks may exceed the budget. -/
theorem C3_counterexample :
    chunkPage tenPerChar [paraA, paraB, paraC] =
      [([paraA], 50), ([paraA, paraB], 510), ([paraC], 10)]
  ∧ CHUNK_TARGET_TOKENS < 510
  ∧ tenPerChar paraA ≤ CHUNK_TARGET_TOKENS
  ∧ tenPerChar paraB ≤ CHUNK_TARGET_TOKENS := by decide

/-- C3 (amended): every chunk is within the 500-token budget, except chunks
that consist of a single paragraph (whose own count is then the chunk's
count) or of an overlap-carried paragraph of at most 50 tokens followed by
a single paragraph; requires the tokenizer property that non-empty strings
have at least one token. -/
theorem C3_token_budget (count : String → Nat)
    (hpos : ∀ s : String, s ≠ "" → 1 ≤ count s)
    (pages : List (Nat × List String)) :
    ∀ c ∈ chunk_document count pages,
      c.token_count ≤ CHUNK_TARGET_TOKENS
      ∨ (∃ p, c.content = p ∧ c.token_count = count p)
      ∨ (∃ s p, c.content = s ++ "\n\n" ++ p ∧ count s ≤ CHUNK_OVERLAP_TOKENS
           ∧ c.token_count = count s + count p) := by
  intro c hc
  rw [chunk_document] at hc
  rw [List.mem_flatMap] at hc
  obtain ⟨pg, _, hc⟩ := hc
  rw [List.mem_map] at hc
  obtain ⟨pc, hpc, rfl⟩ := hc
  have hgood : goodChunk count pc :=
    chunkLoop_good count hpos pg.2 [] 0 ⟨rfl, by simp, Or.inl rfl⟩ pc hpc
  obtain ⟨hsum, _, _, hshape⟩ := hgood
  rcases hshape with h | ⟨p, h⟩ | ⟨s, p, h, hov⟩
  · exact Or.inl h
  · refine Or.inr (Or.inl ⟨p, ?_, ?_⟩)
    · simp [h, intercalate_singleton]
    · simp [hsum, h]
  · refine Or.inr (Or.inr ⟨s, p, ?_, hov, ?_⟩)
    · simp [h, intercalate_pair]
    · simp [hsum, h]

/-- Witness for `C3_token_budget` at a concrete input. -/
theorem C3_token_budget_witness :
    (⟨"a\n\nb", 1, none, 2⟩ : ChunkInfo).token_count ≤ CHUNK_TARGET_TOKENS
    ∨ (∃ p, (⟨"a\n\nb", 1, none, 2⟩ : ChunkInfo).content = p ∧
        (⟨"a\n\nb", 1, none, 2⟩ : ChunkInfo).token_count = String.length p)
    ∨ (∃ s p, (⟨"a\n\nb", 1, none, 2⟩ : ChunkInfo).content = s ++ "\n\n" ++ p ∧
        String.length s ≤ CHUNK_OVERLAP_TOKENS ∧
        (⟨"a\n\nb", 1, none, 2⟩ : ChunkInfo).token_count =
          String.length s + String.length p) :=
  C3_token_budget String.length strLength_pos [(1, ["a", "b"])]
    ⟨"a\n\nb", 1, none, 2⟩ (by decide)

/-- C10: each chunk's `token_count` is the sum of the per-paragraph token
counts of its constituent (stripped) parts — an overlap-carried paragraph
counted once for its chunk — and this can differ from the token count of
the joined `content` string, whose `"\n\n"` separators are never counted. -/
theorem C10_token_count_sum (count : String → Nat)
    (pages : List (Nat × List String)) :
    (∀ c ∈ chunk_document count pages, ∃ ps : List String,
        c.content = String.intercalate "\n\n" ps ∧
        c.token_count = (ps.map count).sum)
  ∧ (∃ c ∈ chunk_document String.length [(1, ["a", "b"])],
      c.token_count ≠ String.length c.content) := by
  constructor
  · intro c hc
    rw [chunk_document] at hc
    rw [List.mem_flatMap] at hc
    obtain ⟨pg, _, hc⟩ := hc
    rw [List.mem_map] at hc
    obtain ⟨pc, hpc, rfl⟩ := hc
    exact ⟨pc.1, rfl, chunkLoop_sum count pg.2 [] 0 rfl pc hpc⟩
  · exact ⟨⟨"a\n\nb", 1, none, 2⟩, by decide, by decide⟩

/-- Witness for `C10_token_count_sum` at a concrete input. -/
theorem C10_token_count_sum_witness :
    ∃ ps : List String,
      (⟨"a\n\nb", 1, none, 2⟩ : ChunkInfo).content = String.intercalate "\n\n" ps ∧
      (⟨"a\n\nb", 1, none, 2⟩ : ChunkInfo).token_count = (ps.map String.length).sum :=
  (C10_token_count_sum String.length [(1, ["a", "b"])]).1
    ⟨"a\n\nb", 1, none, 2⟩ (by decide)

/-- Spec-side definition for the refinement comparison, following the
spec's words (§4.1 step 2): a paragraph starts a legal heading when it
begins with `ARTICLE`, `SECTION`, `SCHEDULE`, `EXHIBIT` or `PART` plus an
identifier, or with a clause number.  No such matching exists anywhere in
`chunk_document` (rag.py lines 82-155); it is stated here only to exhibit
an input the spec's chunker would label with a section. -/
def specIsLegalHeading (p : String) : Bool :=
  (["ARTICLE ", "SECTION ", "SCHEDULE ", "EXHIBIT ", "PART "].any
    fun kw => leadMatch kw.data p.data) ||
  (match p.data with
   | c :: _ => c.isDigit
   | [] => false)

/-- C5 counterexample: an input whose first paragraph is a legal heading
(per the spec's heading forms) still yields chunks whose `section_header`
is `None` — the chunker never assigns a section label. -/
theorem C5_counterexample :
    specIsLegalHeading "ARTICLE 5 TERM" = true
  ∧ chunk_document tenPerChar
      [(1, ["ARTICLE 5 TERM", "The tenant shall pay rent."])] ≠ []
  ∧ (chunk_document tenPerChar
      [(1, ["ARTICLE 5 TERM", "The tenant shall pay rent."])]).all
      (fun c => c.section_header.isNone) = true := by decide

/-- C5 (amended): `chunk_document` assigns `section_header = None` to every
chunk it produces (rag.py lines 127 and 150); section labels are attached
later from the enrichment metadata (rag.py line 310), not by the chunker. -/
theorem C5_section_header_none (count : String → Nat)
    (pages : List (Nat × List String)) :
    ∀ c ∈ chunk_document count pages, c.section_header = none := by
  intro c hc
  rw [chunk_document] at hc
  rw [List.mem_flatMap] at hc
  obtain ⟨pg, _, hc⟩ := hc
  rw [List.mem_map] at hc
  obtain ⟨pc, _, rfl⟩ := hc
  rfl

/-- Witness for `C5_section_header_none` at a concrete input. -/
theorem C5_section_header_none_witness :
    (⟨"x", 1, none, 1⟩ : ChunkInfo).section_header = none :=
  C5_section_header_none String.length [(1, ["x"])] ⟨"x", 1, none, 1⟩ (by decide)

/-- Erased-level adjacency: when the first chunk's last paragraph fits the
overlap budget, the next chunk starts with exactly that paragraph and
contains at least one further paragraph. -/
def overlapOK (count : String → Nat) (c₁ c₂ : List String × Nat) : Prop :=
  ∃ lastPart, c₁.1.getLast? = some lastPart ∧
    (count lastPart ≤ CHUNK_OVERLAP_TOKENS →
      c₂.1.head? = some lastPart ∧ 2 ≤ c₂.1.length)

/-- C7 counterexample: a flushed chunk consisting of a single paragraph
within the overlap budget is carried whole into the next chunk, so the
first chunk's entire content is duplicated as a prefix of the second
chunk's content — refuting "never duplicates an entire chunk". -/
theorem C7_counterexample :
    chunk_document tenPerChar [(1, [paraA, paraB, paraC])] =
      [⟨paraA, 1, none, 50⟩, ⟨paraA ++ "\n\n" ++ paraB, 1, none, 510⟩,
        ⟨paraC, 1, none, 10⟩]
  ∧ tenPerChar paraA ≤ CHUNK_OVERLAP_TOKENS := by decide

/-- C7 (amended): consecutive chunks: the next chunk is seeded with the
flushed chunk's last paragraph exactly when its count is at most 50 tokens
(ghost-instrumented loop, erasure-equal to the source loop); the seed is at
most one paragraph and a seeded chunk always contains at least one further
paragraph. -/
theorem C7_overlap (count : String → Nat) (paras : List String) :
    List.Chain' (overlapOK count) (chunkPage count paras)
  ∧ (chunkPageG count paras).map (fun g => (g.parts, g.tokens)) =
      chunkPage count paras
  ∧ List.Chain' (adjOK count) (chunkPageG count paras)
  ∧ ∀ c ∈ chunkPageG count paras, seedShape count c := by
  have herase : (chunkPageG count paras).map (fun g => (g.parts, g.tokens)) =
      chunkPage count paras := chunkLoopG_erase count paras [] 0 none
  have hchain : List.Chain' (adjOK count) (chunkPageG count paras) :=
    chunkLoopG_chain count paras [] 0 none (fun _ => rfl)
  have hshape : ∀ c ∈ chunkPageG count paras, seedShape count c :=
    chunkLoopG_seedShape count paras [] 0 none (by simp)
  refine ⟨?_, herase, hchain, hshape⟩
  rw [← herase, List.chain'_map]
  refine chain'_mono_mem hchain hshape ?_
  intro g₁ g₂ hadj hsh
  obtain ⟨lastPart, hl, hseed⟩ := hadj
  refine ⟨lastPart, hl, ?_⟩
  intro hov
  rw [if_pos hov] at hseed
  obtain ⟨_, tail, htne, hparts⟩ := hsh lastPart hseed
  constructor
  · simp [hparts]
  · rw [hparts]
    have : 1 ≤ tail.length := List.length_pos.mpr htne
    simp
    omega

/-- Witness for `C7_overlap` at a concrete input. -/
theorem C7_overlap_witness :
    List.Chain' (overlapOK tenPerChar) (chunkPage tenPerChar [paraA, paraB, paraC]) :=
  (C7_overlap tenPerChar [paraA, paraB, paraC]).1

/-! ## Hybrid search (`search_chunks`, rag.py lines 328-434)

The query embedding call, the pgvector SQL ranking (lines 353-371) and the
BM25 library scoring (lines 373-397) are external; the embedding takes
their outcomes as inputs: the embedding call's result as an `Except`
(exception or returned vectors), and the two top-20 rank dictionaries as
association lists `chunk id ↦ 0-based rank`.  Python's float arithmetic on
`1.0 / (k + rank)` is modelled with exact rationals.  `all_chunk_ids` is a
Python `set` of strings; its iteration order (which depends on the process
hash seed) is modelled as an explicit list `order`. -/

/-- One row of the chunk query (rag.py lines 342-348): a `DocumentChunk`
joined with its document's nullable `label` and its `filename`. -/
structure ChunkRow where
  id : String
  document_id : String
  label : Option String
  filename : String
  content : String
  context_text : Option String
  page_number : Nat
  section_header : Option String
deriving DecidableEq, Repr

/-- The `SearchResult` dataclass (rag.py lines 64-74). -/
structure SearchResult where
  chunk_id : String
  document_id : String
  doc_label : String
  doc_filename : String
  content : String
  context_text : Option String
  page_number : Nat
  section_header : Option String
  score : ℚ
deriving DecidableEq, Repr

/-- The RRF constant `k = 60` (rag.py line 400). -/
def RRF_K : Nat := 60

/-- Score `rrf_scores[cid]` (rag.py lines 402-409): `1/(k + rank)` summed over
whichever of the two rank dictionaries contain the chunk id. -/
def rrfScore (vr br : List (String × Nat)) (cid : String) : ℚ :=
  (match vr.lookup cid with
   | some r => (1 : ℚ) / ((RRF_K : ℚ) + (r : ℚ))
   | none => 0) +
  (match br.lookup cid with
   | some r => (1 : ℚ) / ((RRF_K : ℚ) + (r : ℚ))
   | none => 0)

/-- Insertion preserving Python's stable descending sort: a new element is
placed before the first strictly-smaller key, i.e. after every earlier
element with an equal key. -/
def insertDesc {α : Type} (key : α → ℚ) (a : α) : List α → List α
  | [] => [a]
  | b :: l => if key b ≤ key a then a :: b :: l else b :: insertDesc key a l

/-- Python `sorted(xs, key=key, reverse=True)` (rag.py line 412): stable
descending sort by key. -/
def sortDesc {α : Type} (key : α → ℚ) : List α → List α
  | [] => []
  | a :: l => insertDesc key a (sortDesc key l)

/-- Fallback `label or "Doc"` (rag.py line 424): `None` and the empty string both
fall back to `"Doc"`. -/
def labelOrDoc : Option String → String
  | none => "Doc"
  | some l => if l = "" then "Doc" else l

/-- The `SearchResult` built for one fused chunk id (rag.py lines
420-432), carrying the id's fused score. -/
def mkResult (vr br : List (String × Nat)) (cid : String) (row : ChunkRow) :
    SearchResult :=
  { chunk_id := row.id
    document_id := row.document_id
    doc_label := labelOrDoc row.label
    doc_filename := row.filename
    content := row.content
    context_text := row.context_text
    page_number := row.page_number
    section_header := row.section_header
    score := rrfScore vr br cid }

/-- Result construction of rag.py lines 411-434: sort the fused ids by
score descending (stable), truncate to `top_k`, and build a `SearchResult`
for each id found in the chunk map (`rows.find?` models the dict lookup). -/
def buildResults (rows : List ChunkRow) (vr br : List (String × Nat))
    (order : List String) (top_k : Nat) : List SearchResult :=
  ((sortDesc (rrfScore vr br) order).take top_k).filterMap fun cid =>
    (rows.find? (fun row => row.id == cid)).map (mkResult vr br cid)

/-- Function `search_chunks` (rag.py lines 328-434) down to the modelled inputs.
The `embed_texts([query])` call (line 336) is awaited with no surrounding
`try`: an exception propagates to the caller, which the `Except` bind
models; only a normally-returned empty embedding list hits the
`if not query_embeddings: return []` guard (lines 337-338). -/
def search_chunks (embedOutcome : Except String (List (List ℚ)))
    (rows : List ChunkRow) (vr br : List (String × Nat))
    (order : List String) (top_k : Nat) : Except String (List SearchResult) := do
  let queryEmbeddings ← embedOutcome
  if queryEmbeddings.isEmpty then return []
  else if rows.isEmpty then return []
  else return buildResults rows vr br order top_k

/-! ### Sort lemmas: permutation, sortedness, stability -/

theorem insertDesc_perm {α : Type} (key : α → ℚ) (a : α) :
    ∀ l : List α, (insertDesc key a l).Perm (a :: l) := by
  intro l
  induction l with
  | nil => rfl
  | cons b l ih =>
      rw [insertDesc]
      by_cases h : key b ≤ key a
      · rw [if_pos h]
      · rw [if_neg h]
        exact ((ih.cons b).trans (List.Perm.swap a b l))

theorem sortDesc_perm {α : Type} (key : α → ℚ) :
    ∀ l : List α, (sortDesc key l).Perm l := by
  intro l
  induction l with
  | nil => rfl
  | cons a l ih =>
      rw [sortDesc]
      exact (insertDesc_perm key a (sortDesc key l)).trans (ih.cons a)

theorem insertDesc_pairwise {α : Type} (key : α → ℚ) (a : α) :
    ∀ l : List α, l.Pairwise (fun x y => key y ≤ key x) →
      (insertDesc key a l).Pairwise (fun x y => key y ≤ key x) := by
  intro l
  induction l with
  | nil =>
      intro _
      simp [insertDesc]
  | cons b l ih =>
      intro hp
      rw [List.pairwise_cons] at hp
      obtain ⟨hb, hl⟩ := hp
      rw [insertDesc]
      by_cases h : key b ≤ key a
      · rw [if_pos h]
        rw [List.pairwise_cons]
        refine ⟨?_, List.pairwise_cons.mpr ⟨hb, hl⟩⟩
        intro x hx
        rcases List.mem_cons.mp hx with rfl | hx
        · exact h
        · exact le_trans (hb x hx) h
      · rw [if_neg h]
        rw [List.pairwise_cons]
        refine ⟨?_, ih hl⟩
        intro x hx
        have hx' : x ∈ a :: l := (insertDesc_perm key a l).mem_iff.mp hx
        rcases List.mem_cons.mp hx' with rfl | hx''
        · exact le_of_lt (lt_of_not_le h)
        · exact hb x hx''

theorem sortDesc_pairwise {α : Type} (key : α → ℚ) :
    ∀ l : List α, (sortDesc key l).Pairwise (fun x y => key y ≤ key x) := by
  intro l
  induction l with
  | nil => exact List.Pairwise.nil
  | cons a l ih =>
      rw [sortDesc]
      exact insertDesc_pairwise key a _ ih

theorem sublist_insertDesc {α : Type} (key : α → ℚ) (a : α) :
    ∀ l : List α, l.Sublist (insertDesc key a l) := by
  intro l
  induction l with
  | nil => simp [insertDesc]
  | cons b l ih =>
      rw [insertDesc]
      by_cases h : key b ≤ key a
      · rw [if_pos h]
        exact List.sublist_cons_self _ _
      · rw [if_neg h]
        exact ih.cons₂ b

theorem insertDesc_before {α : Type} (key : α → ℚ) (a b : α)
    (hk : key b ≤ key a) :
    ∀ l : List α, b ∈ l → [a, b].Sublist (insertDesc key a l) := by
  intro l
  induction l with
  | nil =>
      intro h
      exact absurd h (List.not_mem_nil b)
  | cons c l ih =>
      intro hb
      rw [insertDesc]
      by_cases h : key c ≤ key a
      · rw [if_pos h]
        exact (List.singleton_sublist.mpr hb).cons₂ a
      · rw [if_neg h]
        rcases List.mem_cons.mp hb with rfl | hb
        · exact absurd hk h
        · exact (ih hb).cons c

/-- Stability of the descending sort: elements with equal (or descending)
keys keep their input order. -/
theorem sortDesc_stable {α : Type} (key : α → ℚ) (a b : α)
    (hk : key b ≤ key a) :
    ∀ l : List α, [a, b].Sublist l → [a, b].Sublist (sortDesc key l) := by
  intro l
  induction l with
  | nil =>
      intro h
      cases h
  | cons c l ih =>
      intro h
      rw [sortDesc]
      cases h with
      | cons _ h' =>
          exact (ih h').trans (sublist_insertDesc key c _)
      | cons₂ _ h' =>
          have hb : b ∈ sortDesc key l :=
            (sortDesc_perm key l).mem_iff.mpr (List.singleton_sublist.mp h')
          exact insertDesc_before key a b hk _ hb

/-! ### Claim theorems about hybrid search -/

theorem mem_buildResults {rows : List ChunkRow} {vr br : List (String × Nat)}
    {order : List String} {top_k : Nat} {r : SearchResult}
    (hr : r ∈ buildResults rows vr br order top_k) :
    ∃ cid row, rows.find? (fun row => row.id == cid) = some row ∧
      r = mkResult vr br cid row ∧ r.chunk_id = cid := by
  rw [buildResults] at hr
  obtain ⟨cid, _, hf⟩ := List.mem_filterMap.mp hr
  obtain ⟨row, hrow, hmk⟩ := Option.map_eq_some'.mp hf
  refine ⟨cid, row, hrow, hmk.symm, ?_⟩
  have hbeq := List.find?_some hrow
  have hbeq' : (row.id == cid) = true := hbeq
  rw [← hmk]
  exact eq_of_beq hbeq'

/-- C1: for fixed vector and lexical top-20 rank lists, every chunk id is
fused with score `1/(60+rank)` summed over exactly the lists containing it;
the returned results number at most `top_k`, are sorted by fused score
descending, each carries its chunk's fused score, and (for a non-empty
scope and a successfully embedded query) `search_chunks` returns exactly
these results. -/
theorem C1_rrf_fusion (rows : List ChunkRow) (vr br : List (String × Nat))
    (order : List String) (top_k : Nat) :
    (∀ cid rv rb, vr.lookup cid = some rv → br.lookup cid = some rb →
        rrfScore vr br cid = 1 / (60 + (rv : ℚ)) + 1 / (60 + (rb : ℚ)))
  ∧ (∀ cid rv, vr.lookup cid = some rv → br.lookup cid = none →
        rrfScore vr br cid = 1 / (60 + (rv : ℚ)))
  ∧ (∀ cid rb, vr.lookup cid = none → br.lookup cid = some rb →
        rrfScore vr br cid = 1 / (60 + (rb : ℚ)))
  ∧ (buildResults rows vr br order top_k).length ≤ top_k
  ∧ (buildResults rows vr br order top_k).Pairwise
      (fun r₁ r₂ => r₂.score ≤ r₁.score)
  ∧ (∀ r ∈ buildResults rows vr br order top_k,
        r.score = rrfScore vr br r.chunk_id)
  ∧ (∀ qe qes, rows ≠ [] →
        search_chunks (Except.ok (qe :: qes)) rows vr br order top_k =
          Except.ok (buildResults rows vr br order top_k)) := by
  refine ⟨?_, ?_, ?_, ?_, ?_, ?_, ?_⟩
  · intro cid rv rb h1 h2
    rw [rrfScore, h1, h2]
    norm_num [RRF_K]
  · intro cid rv h1 h2
    rw [rrfScore, h1, h2]
    norm_num [RRF_K]
  · intro cid rb h1 h2
    rw [rrfScore, h1, h2]
    norm_num [RRF_K]
  · refine le_trans (List.length_filterMap_le _ _) ?_
    rw [List.length_take]
    exact min_le_left _ _
  · refine List.Pairwise.filterMap _ ?_
      ((sortDesc_pairwise (rrfScore vr br) order).sublist
        (List.take_sublist top_k _))
    intro cid₁ cid₂ hle r₁ hr₁ r₂ hr₂
    obtain ⟨row₁, _, hmk₁⟩ := Option.map_eq_some'.mp (Option.mem_def.mp hr₁)
    obtain ⟨row₂, _, hmk₂⟩ := Option.map_eq_some'.mp (Option.mem_def.mp hr₂)
    rw [← hmk₁, ← hmk₂]
    exact hle
  · intro r hr
    obtain ⟨cid, row, _, hmk, hcid⟩ := mem_buildResults hr
    rw [hcid, hmk]
    rfl
  · intro qe qes hrows
    cases rows with
    | nil => exact absurd rfl hrows
    | cons r0 rs => rfl

/-- Witness for `C1_rrf_fusion` at a concrete input. -/
theorem C1_rrf_fusion_witness :
    rrfScore [("a", 0)] [("b", 0), ("a", 2)] "a" =
        1 / (60 + ((0 : Nat) : ℚ)) + 1 / (60 + ((2 : Nat) : ℚ))
  ∧ (buildResults
      [⟨"a", "d1", some "Doc A", "a.pdf", "alpha", none, 1, none⟩]
      [("a", 0)] [("b", 0), ("a", 2)] ["a", "b"] 10).length ≤ 10
  ∧ (buildResults
      [⟨"a", "d1", some "Doc A", "a.pdf", "alpha", none, 1, none⟩]
      [("a", 0)] [("b", 0), ("a", 2)] ["a", "b"] 10).Pairwise
      (fun r₁ r₂ => r₂.score ≤ r₁.score) :=
  have h := C1_rrf_fusion
    [⟨"a", "d1", some "Doc A", "a.pdf", "alpha", none, 1, none⟩]
    [("a", 0)] [("b", 0), ("a", 2)] ["a", "b"] 10
  ⟨h.1 "a" 0 2 (by decide) (by decide), h.2.2.2.1, h.2.2.2.2.1⟩

/-- C2 counterexample: an exception raised by the embedding call
(`await embed_texts([query])`, rag.py line 336, with no surrounding `try`)
propagates out of `search_chunks` instead of producing an empty result
list. -/
theorem C2_counterexample :
    search_chunks (Except.error "embedding failure")
        [⟨"a", "d1", some "Doc A", "a.pdf", "alpha", none, 1, none⟩]
        [("a", 0)] [("a", 1)] ["a"] 10 =
      Except.error "embedding failure"
  ∧ search_chunks (Except.error "embedding failure")
        [⟨"a", "d1", some "Doc A", "a.pdf", "alpha", none, 1, none⟩]
        [("a", 0)] [("a", 1)] ["a"] 10 ≠
      Except.ok [] :=
  ⟨rfl, fun h => Except.noConfusion h⟩

/-- C2 (amended): `search_chunks` returns an empty result list when the
embedding call returns normally with no embeddings (the
`if not query_embeddings` guard, rag.py lines 337-338); an exception from
the embedding call propagates to the caller unchanged. -/
theorem C2_embed_failure (rows : List ChunkRow) (vr br : List (String × Nat))
    (order : List String) (top_k : Nat) (e : String) :
    search_chunks (Except.error e) rows vr br order top_k = Except.error e
  ∧ search_chunks (Except.ok []) rows vr br order top_k = Except.ok [] :=
  ⟨rfl, rfl⟩

/-- Witness for `C2_embed_failure` at a concrete input. -/
theorem C2_embed_failure_witness :
    search_chunks (Except.error "boom")
        [⟨"a", "d1", some "Doc A", "a.pdf", "alpha", none, 1, none⟩]
        [("a", 0)] [("a", 1)] ["a"] 10 =
      Except.error "boom" :=
  (C2_embed_failure
    [⟨"a", "d1", some "Doc A", "a.pdf", "alpha", none, 1, none⟩]
    [("a", 0)] [("a", 1)] ["a"] 10 "boom").1

/-- The two concrete rows used in the search counterexamples and
witnesses. -/
def rowA : ChunkRow := ⟨"a", "d1", some "Doc A", "a.pdf", "alpha", none, 1, none⟩

def rowB : ChunkRow := ⟨"b", "d1", some "Doc A", "a.pdf", "beta", none, 2, none⟩

/-- C6 counterexample: two runs with identical chunks, vector ranks and
BM25 ranks but different iteration orders of the candidate-id set (a
Python string `set`, whose iteration order varies with the process hash
seed) return different orderings; the two tied ids (equal fused scores)
come out in set order, not chunk-id-string order (`'a' < 'b'` yet `"b"`
can precede `"a"`). -/
theorem C6_counterexample :
    rrfScore [("a", 0)] [("b", 0)] "a" = rrfScore [("a", 0)] [("b", 0)] "b"
  ∧ buildResults [rowA, rowB] [("a", 0)] [("b", 0)] ["b", "a"] 10 ≠
      buildResults [rowA, rowB] [("a", 0)] [("b", 0)] ["a", "b"] 10
  ∧ sortDesc (rrfScore [("a", 0)] [("b", 0)]) ["b", "a"] = ["b", "a"]
  ∧ sortDesc (rrfScore [("a", 0)] [("b", 0)]) ["a", "b"] = ["a", "b"]
  ∧ "a".data = ['a'] ∧ "b".data = ['b'] ∧ 'a' < 'b' := by
  have l1 : List.lookup "a" [("a", (0 : Nat))] = some 0 := by decide
  have l2 : List.lookup "a" [("b", (0 : Nat))] = none := by decide
  have l3 : List.lookup "b" [("a", (0 : Nat))] = none := by decide
  have l4 : List.lookup "b" [("b", (0 : Nat))] = some 0 := by decide
  have ha : rrfScore [("a", 0)] [("b", 0)] "a" = 1 / 60 := by
    rw [rrfScore, l1, l2]
    norm_num [RRF_K]
  have hb : rrfScore [("a", 0)] [("b", 0)] "b" = 1 / 60 := by
    rw [rrfScore, l3, l4]
    norm_num [RRF_K]
  have hsort1 : sortDesc (rrfScore [("a", 0)] [("b", 0)]) ["b", "a"] = ["b", "a"] := by
    simp only [sortDesc, insertDesc]
    rw [if_pos (le_of_eq (ha.trans hb.symm))]
  have hsort2 : sortDesc (rrfScore [("a", 0)] [("b", 0)]) ["a", "b"] = ["a", "b"] := by
    simp only [sortDesc, insertDesc]
    rw [if_pos (le_of_eq (hb.trans ha.symm))]
  have hbuild1 : buildResults [rowA, rowB] [("a", 0)] [("b", 0)] ["b", "a"] 10 =
      [mkResult [("a", 0)] [("b", 0)] "b" rowB,
        mkResult [("a", 0)] [("b", 0)] "a" rowA] := by
    rw [buildResults, hsort1]
    rfl
  have hbuild2 : buildResults [rowA, rowB] [("a", 0)] [("b", 0)] ["a", "b"] 10 =
      [mkResult [("a", 0)] [("b", 0)] "a" rowA,
        mkResult [("a", 0)] [("b", 0)] "b" rowB] := by
    rw [buildResults, hsort2]
    rfl
  refine ⟨ha.trans hb.symm, ?_, hsort1, hsort2, by decide, by decide, by decide⟩
  intro h
  rw [hbuild1, hbuild2] at h
  injection h with h1 _
  have h2 := congrArg SearchResult.chunk_id h1
  have hne : ("b" : String) ≠ "a" := by decide
  exact hne h2

/-- C6 (amended): given a fixed iteration order of the candidate-id set,
the output is a pure function of the rank lists and that order; chunks
with exactly equal fused scores keep the set-iteration order (Python's
stable sort), not the chunk-id-string order. -/
theorem C6_tie_order (vr br : List (String × Nat)) (order : List String)
    (a b : String) (hab : [a, b].Sublist order)
    (heq : rrfScore vr br a = rrfScore vr br b) :
    [a, b].Sublist (sortDesc (rrfScore vr br) order) :=
  sortDesc_stable (rrfScore vr br) a b (le_of_eq heq.symm) order hab

/-- Witness for `C6_tie_order` at a concrete input. -/
theorem C6_tie_order_witness :
    [("b" : String), "a"].Sublist
      (sortDesc (rrfScore [("a", 0)] [("b", 0)]) ["b", "a"]) :=
  C6_tie_order [("a", 0)] [("b", 0)] ["b", "a"] "b" "a"
    (List.Sublist.refl _) (by
      have l1 : List.lookup "a" [("a", (0 : Nat))] = some 0 := by decide
      have l2 : List.lookup "a" [("b", (0 : Nat))] = none := by decide
      have l3 : List.lookup "b" [("a", (0 : Nat))] = none := by decide
      have l4 : List.lookup "b" [("b", (0 : Nat))] = some 0 := by decide
      rw [rrfScore, rrfScore, l1, l2, l3, l4]
      norm_num)

/-! ## Context enrichment (`generate_chunk_contexts`, rag.py lines 169-241)

The Anthropic completion call, the fence-stripping regexes (external `re`)
and `json.loads` are modelled as parameters.  The loop appends exactly one
`ChunkMetadata` per chunk on every path: API failure appends
`("", None)` (lines 237-239), an unparseable reply appends the raw text
with a null section (lines 233-236), and a parsed reply appends the two
normalized fields (lines 225-232). -/

/-- The `ChunkMetadata` dataclass (rag.py lines 163-166); the Python field
`section` is called `sectionLabel` here (`section` is a Lean keyword). -/
structure ChunkMetadata where
  context : String
  sectionLabel : Option String
deriving DecidableEq, Repr

/-- Outcome of the per-chunk `client.messages.create` call (rag.py lines
212-217): an exception, or the stripped text of the first content block. -/
inductive HaikuOutcome where
  | err : HaikuOutcome
  | ok (raw : String) : HaikuOutcome
deriving DecidableEq, Repr

/-- The two fields read off a successfully parsed JSON reply:
`parsed.get("context", "")` and `parsed.get("section")` (rag.py lines
227-228). -/
structure ParsedReply where
  context : String
  sectionVal : Option String
deriving DecidableEq, Repr

/-- Normalization `if not section or section == "null": section = None` (rag.py lines
230-231): empty and literal-"null" sections normalize to `None`. -/
def normalizeSection : Option String → Option String
  | none => none
  | some s => if s = "" ∨ s = "null" then none else some s

/-- The body of one iteration of the enrichment loop (rag.py lines
211-239): `callModel` is the completion call's outcome for this chunk,
`stripFences` the two fence-stripping `re.sub`s (applied only when the raw
reply starts with a code fence, line 220), `parseJson` the `json.loads`
outcome (`none` = `JSONDecodeError`). -/
def processChunk (callModel : ChunkInfo → HaikuOutcome)
    (stripFences : String → String)
    (parseJson : String → Option ParsedReply) (c : ChunkInfo) : ChunkMetadata :=
  match callModel c with
  | .err => ⟨"", none⟩
  | .ok raw =>
      let r := if raw.startsWith "```" then stripFences raw else raw
      match parseJson r with
      | some pr => ⟨pr.context, normalizeSection pr.sectionVal⟩
      | none => ⟨r, none⟩

/-- Function `generate_chunk_contexts` (rag.py lines 169-241): one metadata record
per chunk, in chunk order. -/
def generate_chunk_contexts (callModel : ChunkInfo → HaikuOutcome)
    (stripFences : String → String) (parseJson : String → Option ParsedReply)
    (chunks : List ChunkInfo) : List ChunkMetadata :=
  chunks.map (processChunk callModel stripFences parseJson)

/-- C4: the enrichment output is index-aligned with the chunk list — same
length, position `i` holding chunk `i`'s metadata — and an API-failed
chunk yields `("", None)` rather than being dropped; in particular an
all-failure run yields a full list of `("", None)` records. -/
theorem C4_alignment (callModel : ChunkInfo → HaikuOutcome)
    (stripFences : String → String) (parseJson : String → Option ParsedReply)
    (chunks : List ChunkInfo) :
    (generate_chunk_contexts callModel stripFences parseJson chunks).length =
        chunks.length
  ∧ (∀ i : Nat, (generate_chunk_contexts callModel stripFences parseJson chunks)[i]? =
        (chunks[i]?).map (processChunk callModel stripFences parseJson))
  ∧ (∀ c, callModel c = HaikuOutcome.err →
        processChunk callModel stripFences parseJson c = ⟨"", none⟩)
  ∧ ((∀ c, callModel c = HaikuOutcome.err) →
        generate_chunk_contexts callModel stripFences parseJson chunks =
          List.replicate chunks.length ⟨"", none⟩) := by
  refine ⟨List.length_map _ _, ?_, ?_, ?_⟩
  · intro i
    exact List.getElem?_map _ _ _
  · intro c hc
    rw [processChunk, hc]
  · intro hall
    induction chunks with
    | nil => rfl
    | cons c cs ih =>
        rw [generate_chunk_contexts] at ih ⊢
        rw [List.map_cons, List.length_cons, List.replicate_succ, ih]
        rw [processChunk, hall c]

/-- Witness for `C4_alignment`: an all-failure run on one chunk. -/
theorem C4_alignment_witness :
    generate_chunk_contexts (fun _ => HaikuOutcome.err) id (fun _ => none)
        [⟨"x", 1, none, 1⟩] =
      List.replicate ([(⟨"x", 1, none, 1⟩ : ChunkInfo)]).length ⟨"", none⟩ :=
  (C4_alignment (fun _ => HaikuOutcome.err) id (fun _ => none)
    [⟨"x", 1, none, 1⟩]).2.2.2 (fun _ => rfl)

/-! ## Citation extraction (`extract_citations` / `strip_cite_tags` /
`count_sources_cited`, llm.py lines 209-247)

`CITE_RE` is
`<cite\s+doc="([^"]+)"\s+page="(\d+)"(?:\s+section="([^"]*)")?\s*>(.*?)</cite>`
with `re.DOTALL`.  The pattern is effectively deterministic — each
character class is disjoint from the literal that follows it, the optional
section group either matches whole or is skipped, and the lazy inner group
stops at the first `</cite>` — so it is embedded as a deterministic
scanner over the character list.  `finditer`/`sub` semantics: scan left to
right, try a match at each position, emit/rewrite it and continue right
after the match, else advance one character. -/

/-- The `Citation` dataclass (llm.py lines 34-39); the Python field
`section` is called `sectionLabel` here. -/
structure Citation where
  doc_label : String
  page : Nat
  text : String
  sectionLabel : Option String
deriving DecidableEq, Repr

/-- The four capture groups of one `CITE_RE` match, before conversion. -/
structure RawCite where
  doc : List Char
  pageDigits : List Char
  sct : Option (List Char)
  inner : List Char
deriving DecidableEq, Repr

/-- Match a literal character sequence, returning the remainder. -/
def dropLit : List Char → List Char → Option (List Char)
  | [], cs => some cs
  | _ :: _, [] => none
  | l :: ls, c :: cs => if c = l then dropLit ls cs else none

/-- Pattern `\s*`: drop leading whitespace. -/
def wsMany (cs : List Char) : List Char := cs.dropWhile isWS

/-- Pattern `\s+`: at least one whitespace character, then any further ones. -/
def ws1 : List Char → Option (List Char)
  | [] => none
  | c :: cs => if isWS c then some (wsMany cs) else none

def guardB (b : Bool) : Option Unit := if b then some () else none

/-- Split at the first occurrence of `pat`: returns the part before and
the part after it (models the lazy `(.*?)</cite>`). -/
def splitAtFirst (pat : List Char) : List Char → Option (List Char × List Char)
  | [] => if pat.isEmpty then some ([], []) else none
  | c :: cs =>
      if leadMatch pat (c :: cs) then some ([], (c :: cs).drop pat.length)
      else
        match splitAtFirst pat cs with
        | some (b, a) => some (c :: b, a)
        | none => none

/-- The optional `(?:\s+section="([^"]*)")?` group: match it whole or
consume nothing. -/
def matchSectionOpt (cs : List Char) : Option (List Char) × List Char :=
  match (do
    let c1 ← ws1 cs
    let c2 ← dropLit "section=\"".data c1
    let sp := c2.span (fun c => c ≠ '"')
    let c3 ← dropLit "\"".data sp.2
    pure (sp.1, c3) : Option (List Char × List Char)) with
  | some (s, rest) => (some s, rest)
  | none => (none, cs)

/-- Try a `CITE_RE` match starting exactly at the head of `cs`; on success
return the capture groups and the remainder after `</cite>`. -/
def matchCiteAt (cs : List Char) : Option (RawCite × List Char) := do
  let c1 ← dropLit "<cite".data cs
  let c2 ← ws1 c1
  let c3 ← dropLit "doc=\"".data c2
  let spDoc := c3.span (fun c => c ≠ '"')
  let _ ← guardB (!spDoc.1.isEmpty)
  let c4 ← dropLit "\"".data spDoc.2
  let c5 ← ws1 c4
  let c6 ← dropLit "page=\"".data c5
  let spPg := c6.span Char.isDigit
  let _ ← guardB (!spPg.1.isEmpty)
  let c7 ← dropLit "\"".data spPg.2
  let so := matchSectionOpt c7
  let c8 ← dropLit ">".data (wsMany so.2)
  let inr ← splitAtFirst "</cite>".data c8
  pure (⟨spDoc.1, spPg.1, so.1, inr.1⟩, inr.2)

/-- Python `int()` on the digits capture. -/
def digitsToNat (ds : List Char) : Nat :=
  ds.foldl (fun n c => 10 * n + (c.toNat - '0'.toNat)) 0

/-- Build a `Citation` from a match (llm.py lines 219-226): the inner text
is stripped, an absent or empty section becomes `None`. -/
def toCitation (rc : RawCite) : Citation :=
  { doc_label := String.mk rc.doc
    page := digitsToNat rc.pageDigits
    text := String.mk (listStrip rc.inner)
    sectionLabel :=
      match rc.sct with
      | none => none
      | some s => if s.isEmpty then none else some (String.mk s) }

/-- The replacement text of `strip_cite_tags` (llm.py lines 232-239):
`"quoted [doc, section, p.N]"`, the section omitted when absent or empty. -/
def replaceOf (rc : RawCite) : List Char :=
  match rc.sct with
  | some s =>
      if s.isEmpty then
        listStrip rc.inner ++ " [".data ++ rc.doc ++ ", p.".data ++
          rc.pageDigits ++ "]".data
      else
        listStrip rc.inner ++ " [".data ++ rc.doc ++ ", ".data ++ s ++
          ", p.".data ++ rc.pageDigits ++ "]".data
  | none =>
      listStrip rc.inner ++ " [".data ++ rc.doc ++ ", p.".data ++
        rc.pageDigits ++ "]".data

/-! ### Length bounds for the scanner (termination of the scan) -/

theorem dropLit_length {l cs cs' : List Char} (h : dropLit l cs = some cs') :
    cs'.length + l.length = cs.length := by
  induction l generalizing cs with
  | nil =>
      rw [dropLit] at h
      simp at h
      simp [h]
  | cons x xs ih =>
      cases cs with
      | nil => exact absurd h (by rw [dropLit]; simp)
      | cons c cs0 =>
          rw [dropLit] at h
          by_cases hc : c = x
          · rw [if_pos hc] at h
            have := ih h
            simp [List.length_cons]
            omega
          · rw [if_neg hc] at h
            exact absurd h (by simp)

theorem wsMany_length_le (cs : List Char) : (wsMany cs).length ≤ cs.length :=
  (List.dropWhile_sublist isWS).length_le

theorem ws1_length {cs cs' : List Char} (h : ws1 cs = some cs') :
    cs'.length < cs.length := by
  cases cs with
  | nil => exact absurd h (by rw [ws1]; simp)
  | cons c cs0 =>
      rw [ws1] at h
      by_cases hc : isWS c = true
      · rw [if_pos hc] at h
        simp at h
        rw [← h]
        have := wsMany_length_le cs0
        simp [List.length_cons]
        omega
      · rw [if_neg hc] at h
        exact absurd h (by simp)

theorem span_snd_length_le (p : Char → Bool) (cs : List Char) :
    (cs.span p).2.length ≤ cs.length := by
  rw [List.span_eq_take_drop]
  exact (List.dropWhile_sublist p).length_le

theorem matchSectionOpt_length (cs : List Char) :
    (matchSectionOpt cs).2.length ≤ cs.length := by
  rw [matchSectionOpt]
  cases h1 : ws1 cs with
  | none => simp
  | some c1 =>
      simp only [Option.bind_eq_bind, Option.some_bind]
      cases h2 : dropLit "section=\"".data c1 with
      | none => simp
      | some c2 =>
          simp only [Option.some_bind]
          cases h3 : dropLit "\"".data (c2.span (fun c => c ≠ '"')).2 with
          | none => simp
          | some c3 =>
              simp only [Option.some_bind]
              have e1 := ws1_length h1
              have e2 := dropLit_length h2
              have e3 := dropLit_length h3
              have e4 := span_snd_length_le (fun c => c ≠ '"') c2
              simp
              omega

theorem splitAtFirst_length {pat cs b a : List Char}
    (h : splitAtFirst pat cs = some (b, a)) : a.length ≤ cs.length := by
  induction cs generalizing b with
  | nil =>
      rw [splitAtFirst] at h
      by_cases hp : pat.isEmpty
      · rw [if_pos hp] at h
        simp at h
        simp [h.2]
      · rw [if_neg hp] at h
        exact absurd h (by simp)
  | cons c cs0 ih =>
      rw [splitAtFirst] at h
      by_cases hp : leadMatch pat (c :: cs0) = true
      · rw [if_pos hp] at h
        simp at h
        rw [← h.2]
        simp [List.length_drop]
      · rw [if_neg hp] at h
        cases h0 : splitAtFirst pat cs0 with
        | none =>
            rw [h0] at h
            exact absurd h (by simp)
        | some ba =>
            rw [h0] at h
            simp at h
            have := ih (b := ba.1) (by rw [h0, ← h.2])
            rw [← h.2] at this ⊢
            simp [List.length_cons]
            omega

theorem matchCiteAt_length {cs rest : List Char} {rc : RawCite}
    (h : matchCiteAt cs = some (rc, rest)) : rest.length < cs.length := by
  rw [matchCiteAt] at h
  simp only [Option.bind_eq_bind] at h
  cases h1 : dropLit "<cite".data cs with
  | none => rw [h1] at h; simp at h
  | some c1 =>
  rw [h1] at h
  simp only [Option.some_bind] at h
  cases h2 : ws1 c1 with
  | none => rw [h2] at h; simp at h
  | some c2 =>
  rw [h2] at h
  simp only [Option.some_bind] at h
  cases h3 : dropLit "doc=\"".data c2 with
  | none => rw [h3] at h; simp at h
  | some c3 =>
  rw [h3] at h
  simp only [Option.some_bind] at h
  cases h4 : guardB (!(c3.span (fun c => c ≠ '"')).1.isEmpty) with
  | none => rw [h4] at h; simp at h
  | some u4 =>
  rw [h4] at h
  simp only [Option.some_bind] at h
  cases h5 : dropLit "\"".data (c3.span (fun c => c ≠ '"')).2 with
  | none => rw [h5] at h; simp at h
  | some c4 =>
  rw [h5] at h
  simp only [Option.some_bind] at h
  cases h6 : ws1 c4 with
  | none => rw [h6] at h; simp at h
  | some c5 =>
  rw [h6] at h
  simp only [Option.some_bind] at h
  cases h7 : dropLit "page=\"".data c5 with
  | none => rw [h7] at h; simp at h
  | some c6 =>
  rw [h7] at h
  simp only [Option.some_bind] at h
  cases h8 : guardB (!(c6.span Char.isDigit).1.isEmpty) with
  | none => rw [h8] at h; simp at h
  | some u8 =>
  rw [h8] at h
  simp only [Option.some_bind] at h
  cases h9 : dropLit "\"".data (c6.span Char.isDigit).2 with
  | none => rw [h9] at h; simp at h
  | some c7 =>
  rw [h9] at h
  simp only [Option.some_bind] at h
  cases h10 : dropLit ">".data (wsMany (matchSectionOpt c7).2) with
  | none => rw [h10] at h; simp at h
  | some c8 =>
  rw [h10] at h
  simp only [Option.some_bind] at h
  cases h11 : splitAtFirst "</cite>".data c8 with
  | none => rw [h11] at h; simp at h
  | some inr =>
  rw [h11] at h
  simp only [Option.some_bind] at h
  have hrest : rest = inr.2 := by
    cases inr
    simp at h
    exact h.2.symm
  have e1 := dropLit_length h1
  have e2 := ws1_length h2
  have e3 := dropLit_length h3
  have e5 := dropLit_length h5
  have e5b := span_snd_length_le (fun c => c ≠ '"') c3
  have e6 := ws1_length h6
  have e7 := dropLit_length h7
  have e9 := dropLit_length h9
  have e9b := span_snd_length_le Char.isDigit c6
  have e10 := dropLit_length h10
  have e10b := wsMany_length_le (matchSectionOpt c7).2
  have e10c := matchSectionOpt_length c7
  have e11 := splitAtFirst_length (by rw [h11] : splitAtFirst "</cite>".data c8 = some (inr.1, inr.2))
  rw [hrest]
  simp only [List.length_cons, String.data] at e1 e3 e5 e7 e9 e10
  omega

/-! ### The left-to-right scan (`finditer` / `sub`)

The scan consumes at least one character per step, so it is implemented
structurally on a fuel argument that the wrappers instantiate with
`length + 1`; `extractFuel_eq`/`stripFuel_eq` show any sufficient fuel
computes the same result, giving the three unfolding equations that the
proofs (and concrete evaluations) use. -/

def extractFuel : Nat → List Char → List Citation
  | 0, _ => []
  | _ + 1, [] => []
  | fuel + 1, c :: cs =>
      match matchCiteAt (c :: cs) with
      | some (rc, rest) => toCitation rc :: extractFuel fuel rest
      | none => extractFuel fuel cs

def stripFuel : Nat → List Char → List Char
  | 0, _ => []
  | _ + 1, [] => []
  | fuel + 1, c :: cs =>
      match matchCiteAt (c :: cs) with
      | some (rc, rest) => replaceOf rc ++ stripFuel fuel rest
      | none => c :: stripFuel fuel cs

def extractLoop (cs : List Char) : List Citation := extractFuel (cs.length + 1) cs

def stripLoop (cs : List Char) : List Char := stripFuel (cs.length + 1) cs

/-- Function `extract_citations` (llm.py lines 215-227): all matches of `CITE_RE`
in order, converted to `Citation`s. -/
def extract_citations (s : String) : List Citation := extractLoop s.data

/-- Function `strip_cite_tags` (llm.py lines 230-241): `CITE_RE.sub` with the
readable-reference replacement. -/
def strip_cite_tags (s : String) : String := String.mk (stripLoop s.data)

/-- Function `count_sources_cited` (llm.py lines 244-246). -/
def count_sources_cited (s : String) : Nat := (extract_citations s).length

theorem extractFuel_eq :
    ∀ (f1 : Nat) (f2 : Nat) (cs : List Char), cs.length < f1 → cs.length < f2 →
      extractFuel f1 cs = extractFuel f2 cs := by
  intro f1
  induction f1 with
  | zero =>
      intro f2 cs h1 _
      omega
  | succ f1 ih =>
      intro f2 cs h1 h2
      cases f2 with
      | zero => omega
      | succ f2 =>
          cases cs with
          | nil => rfl
          | cons c cs0 =>
              rw [extractFuel, extractFuel]
              cases hm : matchCiteAt (c :: cs0) with
              | none =>
                  simp only
                  exact ih f2 cs0 (by simp at h1; omega) (by simp at h2; omega)
              | some pr =>
                  simp only
                  have hlt := @matchCiteAt_length (c :: cs0) pr.2 pr.1 (by rw [hm])
                  simp only [List.length_cons] at hlt h1 h2
                  rw [ih f2 pr.2 (by omega) (by omega)]

theorem stripFuel_eq :
    ∀ (f1 : Nat) (f2 : Nat) (cs : List Char), cs.length < f1 → cs.length < f2 →
      stripFuel f1 cs = stripFuel f2 cs := by
  intro f1
  induction f1 with
  | zero =>
      intro f2 cs h1 _
      omega
  | succ f1 ih =>
      intro f2 cs h1 h2
      cases f2 with
      | zero => omega
      | succ f2 =>
          cases cs with
          | nil => rfl
          | cons c cs0 =>
              rw [stripFuel, stripFuel]
              cases hm : matchCiteAt (c :: cs0) with
              | none =>
                  simp only
                  rw [ih f2 cs0 (by simp at h1; omega) (by simp at h2; omega)]
              | some pr =>
                  simp only
                  have hlt := @matchCiteAt_length (c :: cs0) pr.2 pr.1 (by rw [hm])
                  simp only [List.length_cons] at hlt h1 h2
                  rw [ih f2 pr.2 (by omega) (by omega)]

theorem extractLoop_nil : extractLoop [] = [] := rfl

theorem extractLoop_cons_some {c : Char} {cs rest : List Char} {rc : RawCite}
    (h : matchCiteAt (c :: cs) = some (rc, rest)) :
    extractLoop (c :: cs) = toCitation rc :: extractLoop rest := by
  have hlt : rest.length < cs.length + 1 := by
    have := matchCiteAt_length h
    simp at this
    omega
  rw [extractLoop, extractLoop]
  show extractFuel (cs.length + 1 + 1) (c :: cs) = _
  rw [extractFuel, h]
  dsimp only
  rw [extractFuel_eq (cs.length + 1) (rest.length + 1) rest hlt (by omega)]

theorem extractLoop_cons_none {c : Char} {cs : List Char}
    (h : matchCiteAt (c :: cs) = none) :
    extractLoop (c :: cs) = extractLoop cs := by
  rw [extractLoop, extractLoop]
  show extractFuel (cs.length + 1 + 1) (c :: cs) = _
  rw [extractFuel, h]

theorem stripLoop_nil : stripLoop [] = [] := rfl

theorem stripLoop_cons_some {c : Char} {cs rest : List Char} {rc : RawCite}
    (h : matchCiteAt (c :: cs) = some (rc, rest)) :
    stripLoop (c :: cs) = replaceOf rc ++ stripLoop rest := by
  have hlt : rest.length < cs.length + 1 := by
    have := matchCiteAt_length h
    simp at this
    omega
  rw [stripLoop, stripLoop]
  show stripFuel (cs.length + 1 + 1) (c :: cs) = _
  rw [stripFuel, h]
  dsimp only
  rw [stripFuel_eq (cs.length + 1) (rest.length + 1) rest hlt (by omega)]

theorem stripLoop_cons_none {c : Char} {cs : List Char}
    (h : matchCiteAt (c :: cs) = none) :
    stripLoop (c :: cs) = c :: stripLoop cs := by
  rw [stripLoop, stripLoop]
  show stripFuel (cs.length + 1 + 1) (c :: cs) = _
  rw [stripFuel, h]

/-- Substring test: does `pat` occur in the list? -/
def hasSub (pat : List Char) : List Char → Bool
  | [] => pat.isEmpty
  | c :: cs => leadMatch pat (c :: cs) || hasSub pat cs

/-- C8 counterexample: `<cite doc="<cite" page="1">q</cite>` contains
exactly one well-formed tag (`[^"]+` lets a doc label contain `<cite`), and
`extract_citations`/`count_sources_cited` do handle it — but the
`strip_cite_tags` rewrite re-emits the doc label into the output, so the
stripped text still contains the literal substring `<cite`. -/
theorem C8_counterexample :
    extract_citations "<cite doc=\"<cite\" page=\"1\">q</cite>" =
      [⟨"<cite", 1, "q", none⟩]
  ∧ count_sources_cited "<cite doc=\"<cite\" page=\"1\">q</cite>" = 1
  ∧ strip_cite_tags "<cite doc=\"<cite\" page=\"1\">q</cite>" = "q [<cite, p.1]"
  ∧ hasSub "<cite".data
      (strip_cite_tags "<cite doc=\"<cite\" page=\"1\">q</cite>").data = true := by
  refine ⟨by decide, by decide, by decide, by decide⟩

/-! ## Citation grounding (`score_citations`, test_rag_e2e.py lines 278-309)

The corpus is modelled as the list of `(doc_label, page_number)` pairs of
the in-scope chunks: `corpus.doc_label_set` is label membership and
`corpus.pages_for_doc(label)` is page membership among that label's
chunks. -/

/-- The per-citation grounding check of `score_citations` (test_rag_e2e.py
lines 289-292): `doc_valid` iff the label is a known document label,
`page_valid` iff (given a valid doc) the page occurs among that document's
chunk pages, `grounded = doc_valid and page_valid`. -/
def citationGrounded (corpus : List (String × Nat)) (c : Citation) : Bool :=
  let docValid := corpus.any (fun r => r.1 == c.doc_label)
  let pageValid :=
    if docValid then
      (corpus.filter (fun r => r.1 == c.doc_label)).any (fun r => r.2 == c.page)
    else false
  docValid && pageValid

/-- C9: a citation is marked grounded iff its label is among the corpus's
document labels and its page occurs among that document's chunk pages; an
out-of-scope label, or a real label with an absent page, is never marked
grounded. -/
theorem C9_grounding (corpus : List (String × Nat)) (c : Citation) :
    (citationGrounded corpus c = true ↔
      ((∃ r ∈ corpus, r.1 = c.doc_label) ∧
        ∃ r ∈ corpus, r.1 = c.doc_label ∧ r.2 = c.page))
  ∧ ((¬ ∃ r ∈ corpus, r.1 = c.doc_label) → citationGrounded corpus c = false)
  ∧ ((¬ ∃ r ∈ corpus, r.1 = c.doc_label ∧ r.2 = c.page) →
      citationGrounded corpus c = false) := by
  have hiff : citationGrounded corpus c = true ↔
      ((∃ r ∈ corpus, r.1 = c.doc_label) ∧
        ∃ r ∈ corpus, r.1 = c.doc_label ∧ r.2 = c.page) := by
    rw [citationGrounded]
    by_cases hd : corpus.any (fun r => r.1 == c.doc_label) = true
    · have hd' : ∃ r ∈ corpus, r.1 = c.doc_label := by
        simpa [List.any_eq_true, beq_iff_eq] using hd
      simp only [hd, if_true, Bool.true_and, List.any_eq_true, List.mem_filter,
        beq_iff_eq]
      constructor
      · intro ⟨r, ⟨hr, h1⟩, h2⟩
        exact ⟨hd', ⟨r, hr, h1, h2⟩⟩
      · intro ⟨_, ⟨r, hr, h1, h2⟩⟩
        exact ⟨r, ⟨hr, h1⟩, h2⟩
    · have hd0 : corpus.any (fun r => r.1 == c.doc_label) = false :=
        Bool.eq_false_iff.mpr hd
      have hd' : ¬ ∃ r ∈ corpus, r.1 = c.doc_label := by
        intro ⟨r, hr, h1⟩
        exact hd (List.any_eq_true.mpr ⟨r, hr, beq_iff_eq.mpr h1⟩)
      simp only [hd0, if_false, Bool.false_and]
      constructor
      · intro h
        exact absurd h (by simp)
      · intro ⟨h1, _⟩
        exact absurd h1 hd'
  refine ⟨hiff, ?_, ?_⟩
  · intro hn
    cases hb : citationGrounded corpus c with
    | false => rfl
    | true => exact absurd (hiff.mp hb).1 hn
  · intro hn
    cases hb : citationGrounded corpus c with
    | false => rfl
    | true => exact absurd (hiff.mp hb).2 hn

/-- Witness for `C9_grounding` at concrete inputs: a real label with a
present page is grounded; an out-of-scope label is not. -/
theorem C9_grounding_witness :
    citationGrounded [("Doc A", 3)] ⟨"Doc A", 3, "q", none⟩ = true
  ∧ citationGrounded [("Doc A", 3)] ⟨"Doc B", 3, "q", none⟩ = false :=
  ⟨(C9_grounding [("Doc A", 3)] ⟨"Doc A", 3, "q", none⟩).1.mpr (by decide),
   (C9_grounding [("Doc A", 3)] ⟨"Doc B", 3, "q", none⟩).2.1 (by decide)⟩

/-! ### Well-formed tags and the citation round trip

`TagSpec` describes one canonically rendered `<cite>` tag.  `validTag`
restricts the field values so that the rendered tag is matched exactly as
written: the doc label is non-empty without `"`, the page is a non-empty
digit string, the optional section has no `"`, and — the restriction the
the counterexample forces — none of doc, section or inner text contains
`<` (so tags cannot nest and replacements cannot reintroduce `<cite`). -/

structure TagSpec where
  doc : List Char
  pageDigits : List Char
  sct : Option (List Char)
  inner : List Char

/-- The canonical text of a tag:
`<cite doc="…" page="…"( section="…")?>…</cite>`. -/
def renderTag (t : TagSpec) : List Char :=
  '<' :: 'c' :: 'i' :: 't' :: 'e' :: ' ' :: 'd' :: 'o' :: 'c' :: '=' :: '"' ::
  (t.doc ++ '"' :: ' ' :: 'p' :: 'a' :: 'g' :: 'e' :: '=' :: '"' ::
  (t.pageDigits ++ '"' ::
  (match t.sct with
   | none => '>' :: (t.inner ++ '<' :: '/' :: 'c' :: 'i' :: 't' :: 'e' :: '>' :: [])
   | some s =>
       ' ' :: 's' :: 'e' :: 'c' :: 't' :: 'i' :: 'o' :: 'n' :: '=' :: '"' ::
       (s ++ '"' :: '>' ::
        (t.inner ++ '<' :: '/' :: 'c' :: 'i' :: 't' :: 'e' :: '>' :: [])))))

/-- The capture groups that matching a rendered tag yields. -/
def rawOf (t : TagSpec) : RawCite := ⟨t.doc, t.pageDigits, t.sct, t.inner⟩

def validTag (t : TagSpec) : Prop :=
  t.doc ≠ [] ∧ (∀ ch ∈ t.doc, ch ≠ '"' ∧ ch ≠ '<') ∧
  t.pageDigits ≠ [] ∧ (∀ ch ∈ t.pageDigits, ch.isDigit = true) ∧
  (∀ s, t.sct = some s → ∀ ch ∈ s, ch ≠ '"' ∧ ch ≠ '<') ∧
  (∀ ch ∈ t.inner, ch ≠ '<')

/-- Plain segments interleaved with rendered tags, ending in a trailing
segment. -/
def weave : List (List Char × TagSpec) → List Char → List Char
  | [], tail => tail
  | (seg, t) :: ps, tail => seg ++ (renderTag t ++ weave ps tail)

/-- The expected `strip_cite_tags` output of a woven string: each tag
replaced by its readable reference. -/
def weaveStripped : List (List Char × TagSpec) → List Char → List Char
  | [], tail => tail
  | (seg, t) :: ps, tail => seg ++ (replaceOf (rawOf t) ++ weaveStripped ps tail)

/-! #### Parser evaluation lemmas on rendered input -/

theorem wsMany_head_not_ws {cs : List Char}
    (h : ∀ c, cs.head? = some c → isWS c = false) : wsMany cs = cs := by
  cases cs with
  | nil => rfl
  | cons c cs0 =>
      rw [wsMany, List.dropWhile_cons, if_neg]
      simp [h c rfl]

theorem ws1_space {cs : List Char}
    (h : ∀ c, cs.head? = some c → isWS c = false) : ws1 (' ' :: cs) = some cs := by
  rw [ws1, if_pos (by decide)]
  rw [wsMany_head_not_ws h]

theorem takeWhile_all_append {p : Char → Bool} :
    ∀ (xs r : List Char), (∀ ch ∈ xs, p ch = true) →
      (∀ c, r.head? = some c → p c = false) →
      (xs ++ r).takeWhile p = xs := by
  intro xs
  induction xs with
  | nil =>
      intro r _ hr
      cases r with
      | nil => rfl
      | cons c r0 =>
          simp only [List.nil_append, List.takeWhile_cons]
          rw [hr c rfl]
          simp
  | cons x xs0 ih =>
      intro r hxs hr
      rw [List.cons_append, List.takeWhile_cons, hxs x (by simp)]
      rw [ih r (fun ch hch => hxs ch (by simp [hch])) hr]
      simp

theorem dropWhile_all_append {p : Char → Bool} :
    ∀ (xs r : List Char), (∀ ch ∈ xs, p ch = true) →
      (∀ c, r.head? = some c → p c = false) →
      (xs ++ r).dropWhile p = r := by
  intro xs
  induction xs with
  | nil =>
      intro r _ hr
      cases r with
      | nil => rfl
      | cons c r0 =>
          simp only [List.nil_append, List.dropWhile_cons]
          rw [hr c rfl]
          simp
  | cons x xs0 ih =>
      intro r hxs hr
      rw [List.cons_append, List.dropWhile_cons, hxs x (by simp)]
      simp only [if_true]
      exact ih r (fun ch hch => hxs ch (by simp [hch])) hr

theorem span_all_append {p : Char → Bool} (xs r : List Char)
    (hxs : ∀ ch ∈ xs, p ch = true)
    (hr : ∀ c, r.head? = some c → p c = false) :
    (xs ++ r).span p = (xs, r) := by
  rw [List.span_eq_take_drop, takeWhile_all_append xs r hxs hr,
    dropWhile_all_append xs r hxs hr]

theorem splitAtFirst_exact {rest : List Char} :
    ∀ (xs : List Char), (∀ ch ∈ xs, ch ≠ '<') →
      splitAtFirst "</cite>".data
        (xs ++ '<' :: '/' :: 'c' :: 'i' :: 't' :: 'e' :: '>' :: rest) =
        some (xs, rest) := by
  intro xs
  induction xs with
  | nil =>
      intro _
      rw [List.nil_append, splitAtFirst]
      rw [if_pos (by rfl)]
      rfl
  | cons x xs0 ih =>
      intro hxs
      rw [List.cons_append, splitAtFirst, if_neg, ih (fun ch hch => hxs ch (by simp [hch]))]
      have hx : x ≠ '<' := hxs x (by simp)
      rw [show "</cite>".data = '<' :: '/' :: 'c' :: 'i' :: 't' :: 'e' :: '>' :: [] from rfl]
      rw [leadMatch]
      simp [hx]
      intro h
      exact absurd h.symm hx

/-- A character other than `<` never starts a match. -/
theorem matchCiteAt_not_lt {c : Char} {cs : List Char} (hc : c ≠ '<') :
    matchCiteAt (c :: cs) = none := by
  rw [matchCiteAt]
  rw [show "<cite".data = '<' :: 'c' :: 'i' :: 't' :: 'e' :: [] from rfl]
  rw [dropLit, if_neg hc]
  rfl

theorem dropLit_cite (R : List Char) :
    dropLit "<cite".data ('<' :: 'c' :: 'i' :: 't' :: 'e' :: R) = some R := rfl

theorem dropLit_docq (R : List Char) :
    dropLit "doc=\"".data ('d' :: 'o' :: 'c' :: '=' :: '"' :: R) = some R := rfl

theorem dropLit_q (R : List Char) : dropLit "\"".data ('"' :: R) = some R := rfl

theorem dropLit_pageq (R : List Char) :
    dropLit "page=\"".data ('p' :: 'a' :: 'g' :: 'e' :: '=' :: '"' :: R) = some R := rfl

theorem dropLit_sectionq (R : List Char) :
    dropLit "section=\"".data
      ('s' :: 'e' :: 'c' :: 't' :: 'i' :: 'o' :: 'n' :: '=' :: '"' :: R) = some R := rfl

theorem dropLit_gt (R : List Char) : dropLit ">".data ('>' :: R) = some R := rfl

theorem guardB_not_isEmpty {l : List Char} (h : l ≠ []) :
    guardB (!l.isEmpty) = some () := by
  cases l with
  | nil => exact absurd rfl h
  | cons a as => rfl

theorem head_cons_not_ws {c : Char} {cs : List Char} (h : isWS c = false) :
    ∀ x, (c :: cs).head? = some x → isWS x = false := by
  intro x hx
  rw [List.head?_cons] at hx
  injection hx with hx
  rw [← hx]
  exact h

theorem matchSectionOpt_no {cs : List Char}
    (h : ∀ c, cs.head? = some c → isWS c = false) :
    matchSectionOpt cs = (none, cs) := by
  have hws : ws1 cs = none := by
    cases cs with
    | nil => rfl
    | cons c cs0 =>
        rw [ws1, if_neg]
        simp [h c rfl]
  rw [matchSectionOpt, hws]
  rfl

theorem matchSectionOpt_yes {s X : List Char} (hs : ∀ ch ∈ s, ch ≠ '"') :
    matchSectionOpt
      (' ' :: 's' :: 'e' :: 'c' :: 't' :: 'i' :: 'o' :: 'n' :: '=' :: '"' ::
        (s ++ '"' :: X)) = (some s, X) := by
  rw [matchSectionOpt]
  rw [ws1_space (head_cons_not_ws (by decide))]
  simp only [Option.bind_eq_bind, Option.some_bind]
  rw [dropLit_sectionq]
  simp only [Option.some_bind]
  rw [span_all_append s ('"' :: X) (fun ch hch => by simp [hs ch hch])
    (by
      intro c hc
      rw [List.head?_cons] at hc
      injection hc with hc
      rw [← hc]
      decide)]
  dsimp only
  rw [dropLit_q]
  rfl

/-- Matching a canonically rendered valid tag succeeds, captures exactly
the tag's fields, and consumes exactly the tag. -/
theorem matchCiteAt_renderTag (t : TagSpec) (hv : validTag t) (rest : List Char) :
    matchCiteAt (renderTag t ++ rest) = some (rawOf t, rest) := by
  obtain ⟨hdocne, hdocch, hpgne, hpgd, hsct, hinner⟩ := hv
  obtain ⟨doc, pg, sct, inner⟩ := t
  simp only at hdocne hdocch hpgne hpgd hsct hinner
  cases sct with
  | none =>
      have hshape : renderTag ⟨doc, pg, none, inner⟩ ++ rest =
          '<' :: 'c' :: 'i' :: 't' :: 'e' :: ' ' :: 'd' :: 'o' :: 'c' :: '=' :: '"' ::
          (doc ++ '"' :: ' ' :: 'p' :: 'a' :: 'g' :: 'e' :: '=' :: '"' ::
          (pg ++ '"' :: '>' ::
          (inner ++ '<' :: '/' :: 'c' :: 'i' :: 't' :: 'e' :: '>' :: rest))) := by
        simp [renderTag, List.cons_append, List.append_assoc]
      rw [hshape, matchCiteAt]
      simp only [Option.bind_eq_bind]
      rw [dropLit_cite]
      simp only [Option.some_bind]
      rw [ws1_space (head_cons_not_ws (by decide))]
      simp only [Option.some_bind]
      rw [dropLit_docq]
      simp only [Option.some_bind]
      rw [span_all_append doc _ (fun ch hch => by simp [(hdocch ch hch).1])
        (by
          intro c hc
          rw [List.head?_cons] at hc
          injection hc with hc
          rw [← hc]
          decide)]
      dsimp only
      rw [guardB_not_isEmpty hdocne]
      simp only [Option.some_bind]
      rw [dropLit_q]
      simp only [Option.some_bind]
      rw [ws1_space (head_cons_not_ws (by decide))]
      simp only [Option.some_bind]
      rw [dropLit_pageq]
      simp only [Option.some_bind]
      rw [span_all_append pg _ (fun ch hch => hpgd ch hch)
        (by
          intro c hc
          rw [List.head?_cons] at hc
          injection hc with hc
          rw [← hc]
          decide)]
      dsimp only
      rw [guardB_not_isEmpty hpgne]
      simp only [Option.some_bind]
      rw [dropLit_q]
      simp only [Option.some_bind]
      rw [matchSectionOpt_no (head_cons_not_ws (by decide))]
      dsimp only
      rw [wsMany_head_not_ws (head_cons_not_ws (by decide))]
      rw [dropLit_gt]
      simp only [Option.some_bind]
      rw [splitAtFirst_exact inner hinner]
      simp only [Option.some_bind]
      rfl
  | some s =>
      have hshape : renderTag ⟨doc, pg, some s, inner⟩ ++ rest =
          '<' :: 'c' :: 'i' :: 't' :: 'e' :: ' ' :: 'd' :: 'o' :: 'c' :: '=' :: '"' ::
          (doc ++ '"' :: ' ' :: 'p' :: 'a' :: 'g' :: 'e' :: '=' :: '"' ::
          (pg ++ '"' ::
          (' ' :: 's' :: 'e' :: 'c' :: 't' :: 'i' :: 'o' :: 'n' :: '=' :: '"' ::
          (s ++ '"' :: '>' ::
          (inner ++ '<' :: '/' :: 'c' :: 'i' :: 't' :: 'e' :: '>' :: rest))))) := by
        simp [renderTag, List.cons_append, List.append_assoc]
      rw [hshape, matchCiteAt]
      simp only [Option.bind_eq_bind]
      rw [dropLit_cite]
      simp only [Option.some_bind]
      rw [ws1_space (head_cons_not_ws (by decide))]
      simp only [Option.some_bind]
      rw [dropLit_docq]
      simp only [Option.some_bind]
      rw [span_all_append doc _ (fun ch hch => by simp [(hdocch ch hch).1])
        (by
          intro c hc
          rw [List.head?_cons] at hc
          injection hc with hc
          rw [← hc]
          decide)]
      dsimp only
      rw [guardB_not_isEmpty hdocne]
      simp only [Option.some_bind]
      rw [dropLit_q]
      simp only [Option.some_bind]
      rw [ws1_space (head_cons_not_ws (by decide))]
      simp only [Option.some_bind]
      rw [dropLit_pageq]
      simp only [Option.some_bind]
      rw [span_all_append pg _ (fun ch hch => hpgd ch hch)
        (by
          intro c hc
          rw [List.head?_cons] at hc
          injection hc with hc
          rw [← hc]
          decide)]
      dsimp only
      rw [guardB_not_isEmpty hpgne]
      simp only [Option.some_bind]
      rw [dropLit_q]
      simp only [Option.some_bind]
      rw [matchSectionOpt_yes (fun ch hch => (hsct s rfl ch hch).1)]
      dsimp only
      rw [wsMany_head_not_ws (head_cons_not_ws (by decide))]
      rw [dropLit_gt]
      simp only [Option.some_bind]
      rw [splitAtFirst_exact inner hinner]
      simp only [Option.some_bind]
      rfl

/-! #### Scanning woven strings -/

/-- Scanning a `<`-free segment finds nothing in it. -/
theorem extractLoop_seg (r : List Char) :
    ∀ seg : List Char, (∀ ch ∈ seg, ch ≠ '<') →
      extractLoop (seg ++ r) = extractLoop r := by
  intro seg
  induction seg with
  | nil =>
      intro _
      rw [List.nil_append]
  | cons c seg0 ih =>
      intro hseg
      rw [List.cons_append]
      rw [extractLoop_cons_none (matchCiteAt_not_lt (hseg c (by simp)))]
      exact ih (fun ch hch => hseg ch (by simp [hch]))

theorem stripLoop_seg (r : List Char) :
    ∀ seg : List Char, (∀ ch ∈ seg, ch ≠ '<') →
      stripLoop (seg ++ r) = seg ++ stripLoop r := by
  intro seg
  induction seg with
  | nil =>
      intro _
      rw [List.nil_append, List.nil_append]
  | cons c seg0 ih =>
      intro hseg
      rw [List.cons_append]
      rw [stripLoop_cons_none (matchCiteAt_not_lt (hseg c (by simp)))]
      rw [ih (fun ch hch => hseg ch (by simp [hch]))]
      rfl

theorem extractLoop_no_lt {cs : List Char} (h : ∀ ch ∈ cs, ch ≠ '<') :
    extractLoop cs = [] := by
  have := extractLoop_seg [] cs h
  rw [List.append_nil] at this
  rw [this, extractLoop_nil]

theorem stripLoop_no_lt {cs : List Char} (h : ∀ ch ∈ cs, ch ≠ '<') :
    stripLoop cs = cs := by
  have := stripLoop_seg [] cs h
  rw [List.append_nil] at this
  rw [this, stripLoop_nil, List.append_nil]

/-- Scanning a rendered valid tag consumes it whole, emitting its
citation. -/
theorem extractLoop_tag (t : TagSpec) (hv : validTag t) (r : List Char) :
    extractLoop (renderTag t ++ r) = toCitation (rawOf t) :: extractLoop r := by
  have hm := matchCiteAt_renderTag t hv r
  have hshape : renderTag t ++ r = '<' :: ((renderTag t).tail ++ r) := rfl
  rw [hshape] at hm ⊢
  exact extractLoop_cons_some hm

theorem stripLoop_tag (t : TagSpec) (hv : validTag t) (r : List Char) :
    stripLoop (renderTag t ++ r) = replaceOf (rawOf t) ++ stripLoop r := by
  have hm := matchCiteAt_renderTag t hv r
  have hshape : renderTag t ++ r = '<' :: ((renderTag t).tail ++ r) := rfl
  rw [hshape] at hm ⊢
  exact stripLoop_cons_some hm

theorem listStrip_subset {cs : List Char} {ch : Char} (h : ch ∈ listStrip cs) :
    ch ∈ cs := by
  rw [listStrip, List.mem_reverse] at h
  have h1 := (List.dropWhile_sublist isWS).subset h
  rw [List.mem_reverse] at h1
  exact (List.dropWhile_sublist isWS).subset h1

theorem replaceOf_no_lt {t : TagSpec} (hv : validTag t) :
    ∀ ch ∈ replaceOf (rawOf t), ch ≠ '<' := by
  obtain ⟨_, hdocch, _, hpgd, hsct, hinner⟩ := hv
  obtain ⟨doc, pg, sct, inner⟩ := t
  simp only at hdocch hpgd hsct hinner
  intro ch hch
  have hlit1 : ch ∈ " [".data → ch ≠ '<' := by
    intro h heq
    subst heq
    revert h
    decide
  have hlit2 : ch ∈ ", p.".data → ch ≠ '<' := by
    intro h heq
    subst heq
    revert h
    decide
  have hlit3 : ch ∈ "]".data → ch ≠ '<' := by
    intro h heq
    subst heq
    revert h
    decide
  have hlit4 : ch ∈ ", ".data → ch ≠ '<' := by
    intro h heq
    subst heq
    revert h
    decide
  have hpg' : ch ∈ pg → ch ≠ '<' := by
    intro h heq
    subst heq
    have := hpgd '<' h
    revert this
    decide
  cases sct with
  | none =>
      have hrepl : replaceOf (rawOf ⟨doc, pg, none, inner⟩) =
          listStrip inner ++ " [".data ++ doc ++ ", p.".data ++ pg ++ "]".data := rfl
      rw [hrepl] at hch
      simp only [List.mem_append, or_assoc] at hch
      rcases hch with h | h | h | h | h | h
      · exact hinner ch (listStrip_subset h)
      · exact hlit1 h
      · exact (hdocch ch h).2
      · exact hlit2 h
      · exact hpg' h
      · exact hlit3 h
  | some s =>
      have hrepl : replaceOf (rawOf ⟨doc, pg, some s, inner⟩) =
          if s.isEmpty then
            listStrip inner ++ " [".data ++ doc ++ ", p.".data ++ pg ++ "]".data
          else
            listStrip inner ++ " [".data ++ doc ++ ", ".data ++ s ++ ", p.".data ++
              pg ++ "]".data := rfl
      rw [hrepl] at hch
      by_cases hse : s.isEmpty
      · rw [if_pos hse] at hch
        simp only [List.mem_append, or_assoc] at hch
        rcases hch with h | h | h | h | h | h
        · exact hinner ch (listStrip_subset h)
        · exact hlit1 h
        · exact (hdocch ch h).2
        · exact hlit2 h
        · exact hpg' h
        · exact hlit3 h
      · rw [if_neg hse] at hch
        simp only [List.mem_append, or_assoc] at hch
        rcases hch with h | h | h | h | h | h | h | h
        · exact hinner ch (listStrip_subset h)
        · exact hlit1 h
        · exact (hdocch ch h).2
        · exact hlit4 h
        · exact (hsct s rfl ch h).2
        · exact hlit2 h
        · exact hpg' h
        · exact hlit3 h

theorem hasSub_no_lt {cs : List Char} (h : ∀ ch ∈ cs, ch ≠ '<') :
    hasSub "<cite".data cs = false := by
  induction cs with
  | nil => rfl
  | cons c cs0 ih =>
      rw [hasSub]
      have hpre : leadMatch "<cite".data (c :: cs0) = false := by
        rw [show "<cite".data = '<' :: 'c' :: 'i' :: 't' :: 'e' :: [] from rfl]
        rw [leadMatch]
        have : ('<' == c) = false := beq_eq_false_iff_ne.mpr (Ne.symm (h c (by simp)))
        rw [this]
        rfl
      rw [hpre, ih (fun ch hch => h ch (by simp [hch]))]
      rfl

theorem weaveStripped_no_lt (tail : List Char) (htail : ∀ ch ∈ tail, ch ≠ '<') :
    ∀ ps : List (List Char × TagSpec),
      (∀ p ∈ ps, (∀ ch ∈ p.1, ch ≠ '<') ∧ validTag p.2) →
      ∀ ch ∈ weaveStripped ps tail, ch ≠ '<' := by
  intro ps
  induction ps with
  | nil =>
      intro _ ch hch
      exact htail ch hch
  | cons p ps0 ih =>
      intro hps ch hch
      obtain ⟨seg, t⟩ := p
      rw [weaveStripped] at hch
      simp only [List.mem_append, or_assoc] at hch
      rcases hch with h | h | h
      · exact (hps (seg, t) (by simp)).1 ch h
      · exact replaceOf_no_lt (hps (seg, t) (by simp)).2 ch h
      · exact ih (fun q hq => hps q (by simp [hq])) ch h

/-- C8 (amended): for an answer built from `<`-free plain segments
interleaved with `N` canonically rendered well-formed tags whose doc
label, section and inner text contain no `<` character,
`extract_citations` returns exactly those `N` citations in order,
`count_sources_cited` returns `N`, `strip_cite_tags` rewrites each tag to
its bracketed reference, and the stripped text contains no `<cite`
substring.  (The counterexample shows the claim fails without the
no-`<` proviso.) -/
theorem C8_round_trip (ps : List (List Char × TagSpec)) (tail : List Char)
    (hps : ∀ p ∈ ps, (∀ ch ∈ p.1, ch ≠ '<') ∧ validTag p.2)
    (htail : ∀ ch ∈ tail, ch ≠ '<') :
    extract_citations (String.mk (weave ps tail)) =
        ps.map (fun p => toCitation (rawOf p.2))
  ∧ count_sources_cited (String.mk (weave ps tail)) = ps.length
  ∧ strip_cite_tags (String.mk (weave ps tail)) =
        String.mk (weaveStripped ps tail)
  ∧ hasSub "<cite".data (strip_cite_tags (String.mk (weave ps tail))).data =
        false := by
  have hex : ∀ ps0 : List (List Char × TagSpec),
      (∀ p ∈ ps0, (∀ ch ∈ p.1, ch ≠ '<') ∧ validTag p.2) →
      extractLoop (weave ps0 tail) = ps0.map (fun p => toCitation (rawOf p.2)) := by
    intro ps0
    induction ps0 with
    | nil =>
        intro _
        exact extractLoop_no_lt htail
    | cons p ps1 ih =>
        intro hps0
        obtain ⟨seg, t⟩ := p
        rw [weave]
        rw [extractLoop_seg _ seg (hps0 (seg, t) (by simp)).1]
        rw [extractLoop_tag t (hps0 (seg, t) (by simp)).2]
        rw [ih (fun q hq => hps0 q (by simp [hq]))]
        rfl
  have hst : ∀ ps0 : List (List Char × TagSpec),
      (∀ p ∈ ps0, (∀ ch ∈ p.1, ch ≠ '<') ∧ validTag p.2) →
      stripLoop (weave ps0 tail) = weaveStripped ps0 tail := by
    intro ps0
    induction ps0 with
    | nil =>
        intro _
        exact stripLoop_no_lt htail
    | cons p ps1 ih =>
        intro hps0
        obtain ⟨seg, t⟩ := p
        rw [weave, weaveStripped]
        rw [stripLoop_seg _ seg (hps0 (seg, t) (by simp)).1]
        rw [stripLoop_tag t (hps0 (seg, t) (by simp)).2]
        rw [ih (fun q hq => hps0 q (by simp [hq]))]
  have he : extract_citations (String.mk (weave ps tail)) =
      ps.map (fun p => toCitation (rawOf p.2)) := hex ps hps
  have hs : strip_cite_tags (String.mk (weave ps tail)) =
      String.mk (weaveStripped ps tail) := by
    rw [strip_cite_tags]
    rw [show (String.mk (weave ps tail)).data = weave ps tail from rfl]
    rw [hst ps hps]
  refine ⟨he, ?_, hs, ?_⟩
  · rw [count_sources_cited, he, List.length_map]
  · rw [hs]
    exact hasSub_no_lt (weaveStripped_no_lt tail htail ps hps)

/-- The concrete tag and weave used by the `C8_round_trip` witness. -/
def demoTag : TagSpec := ⟨"Doc A".data, "3".data, none, "rent".data⟩

/-- Witness for `C8_round_trip` at a concrete input. -/
theorem C8_round_trip_witness :
    extract_citations (String.mk (weave [("see ".data, demoTag)] " ok".data)) =
        [("see ".data, demoTag)].map (fun p => toCitation (rawOf p.2))
  ∧ count_sources_cited (String.mk (weave [("see ".data, demoTag)] " ok".data)) = 1
  ∧ hasSub "<cite".data
      (strip_cite_tags (String.mk (weave [("see ".data, demoTag)] " ok".data))).data =
        false :=
  have h := C8_round_trip [("see ".data, demoTag)] " ok".data
    (by
      intro p hp
      rw [List.mem_singleton] at hp
      subst hp
      refine ⟨by decide, by decide, by decide, by decide, by decide, ?_, by decide⟩
      intro s hs
      cases hs)
    (by decide)
  ⟨h.1, h.2.1, h.2.2.2⟩

end AiOrb
